import Mathlib

/-!
# Verification of the multi-pattern proxy URL-resolution pipeline

A shallow embedding of the core of `server.js` of the multi-pattern proxy:
parameter maps (JavaScript objects with string keys), `encodeURIComponent`,
URL-template scanning and substitution (`buildUrl`), placeholder validation
(`validatePlaceholders`), the allow-list matcher (`isAllowed`), named and
positional path resolution (`processRequest`), startup configuration parsing
(`URL_PATTERNS`), the file cache validity check (`isCacheValid`,
`readCacheFile`) and the expiry sweep (`cleanExpiredCacheFiles`).

Strings are modelled at the level of their character lists; machine integers
of JavaScript are modelled as `Int` / `Nat` (none of the quantities involved
approach 2^53, where `Number` arithmetic would stop being exact).
-/

namespace Proxy

/-! ## JavaScript object semantics for string-keyed parameter maps

A JavaScript object used as a dictionary keeps one binding per key; assigning
to an existing key overwrites the binding in place, assigning a fresh key
appends it in insertion order.  `jsSet` / `jsGet` model exactly that on an
association list. -/

/-- `obj[k] = v` on a JavaScript object: replace the first binding of `k`
in place, or append a new binding. -/
def jsSet {α : Type} : List (String × α) → String → α → List (String × α)
  | [], k, v => [(k, v)]
  | e :: es, k, v => if e.1 = k then (k, v) :: es else e :: jsSet es k v

/-- `obj[k]` on a JavaScript object: `some` value or `none` for `undefined`. -/
def jsGet {α : Type} (m : List (String × α)) (k : String) : Option α :=
  (m.find? (fun e => decide (e.1 = k))).map (fun e => e.2)

@[simp] theorem jsGet_nil {α : Type} (k : String) : jsGet ([] : List (String × α)) k = none := rfl

theorem jsGet_cons {α : Type} (e : String × α) (es : List (String × α)) (k : String) :
    jsGet (e :: es) k = if e.1 = k then some e.2 else jsGet es k := by
  by_cases h : e.1 = k <;> simp [jsGet, List.find?_cons, h]

@[simp] theorem jsGet_jsSet_self {α : Type} (m : List (String × α)) (k : String) (v : α) :
    jsGet (jsSet m k v) k = some v := by
  induction m with
  | nil => simp [jsSet, jsGet_cons]
  | cons e es ih =>
    by_cases h : e.1 = k
    · simp [jsSet, h, jsGet_cons]
    · simp [jsSet, h, jsGet_cons, ih]

theorem jsGet_jsSet_ne {α : Type} (m : List (String × α)) (k k' : String) (v : α)
    (h : k' ≠ k) : jsGet (jsSet m k v) k' = jsGet m k' := by
  have h' : ¬ k = k' := fun hc => h hc.symm
  induction m with
  | nil => simp [jsSet, jsGet_cons, h']
  | cons e es ih =>
    by_cases he : e.1 = k
    · subst he
      simp only [jsSet, if_true]
      rw [jsGet_cons, jsGet_cons]
      rw [if_neg h', if_neg h']
    · simp only [jsSet, if_neg he]
      rw [jsGet_cons, jsGet_cons]
      by_cases he' : e.1 = k' <;> simp [he', ih]

theorem jsSet_of_not_mem {α : Type} (m : List (String × α)) (k : String) (v : α)
    (h : jsGet m k = none) : jsSet m k v = m ++ [(k, v)] := by
  induction m with
  | nil => simp [jsSet]
  | cons e es ih =>
    rw [jsGet_cons] at h
    by_cases he : e.1 = k
    · simp [he] at h
    · simp [he] at h
      simp [jsSet, he, ih h]

theorem length_jsSet_of_not_mem {α : Type} (m : List (String × α)) (k : String) (v : α)
    (h : jsGet m k = none) : (jsSet m k v).length = m.length + 1 := by
  rw [jsSet_of_not_mem m k v h]
  simp

theorem jsGet_append {α : Type} (m m' : List (String × α)) (k : String) :
    jsGet (m ++ m') k = ((jsGet m k).orElse (fun _ => jsGet m' k)) := by
  induction m with
  | nil => simp
  | cons e es ih =>
    rw [List.cons_append, jsGet_cons, jsGet_cons]
    by_cases he : e.1 = k <;> simp [he, ih]

/-! ## `encodeURIComponent`

ECMAScript's `encodeURIComponent` leaves the unreserved characters
`A-Z a-z 0-9 - _ . ! ~ * ( )` and the apostrophe (code 39) untouched and
replaces every other character by the `%XX` (uppercase hexadecimal) encoding
of each byte of its UTF-8 representation. -/

/-- UTF-8 bytes of a Unicode scalar value. -/
def utf8Bytes (n : Nat) : List Nat :=
  if n < 128 then [n]
  else if n < 2048 then [192 + n / 64, 128 + n % 64]
  else if n < 65536 then [224 + n / 4096, 128 + (n / 64) % 64, 128 + n % 64]
  else [240 + n / 262144, 128 + (n / 4096) % 64, 128 + (n / 64) % 64, 128 + n % 64]

/-- Uppercase hexadecimal digit. -/
def hexDigitChar (n : Nat) : Char :=
  if n < 10 then Char.ofNat (48 + n) else Char.ofNat (55 + n)

/-- `%XX` escape of one byte. -/
def percentByte (b : Nat) : List Char :=
  [Char.ofNat 37, hexDigitChar (b / 16), hexDigitChar (b % 16)]

/-- The characters `encodeURIComponent` leaves unescaped
(`A-Z a-z 0-9 - _ . ! ~ * ( )` and code 39). -/
def isUriUnreserved (c : Char) : Bool :=
  (65 ≤ c.toNat && c.toNat ≤ 90) || (97 ≤ c.toNat && c.toNat ≤ 122) ||
  (48 ≤ c.toNat && c.toNat ≤ 57) || c.toNat = 45 || c.toNat = 95 || c.toNat = 46 ||
  c.toNat = 33 || c.toNat = 126 || c.toNat = 42 || c.toNat = 39 || c.toNat = 40 ||
  c.toNat = 41

/-- One character of `encodeURIComponent` output. -/
def encodeChar (c : Char) : List Char :=
  if isUriUnreserved c then [c] else ((utf8Bytes c.toNat).map percentByte).flatten

/-- ECMAScript `encodeURIComponent`. -/
def encodeURIComponent (s : String) : String :=
  String.mk ((s.data.map encodeChar).flatten)

example : encodeURIComponent ("a/b c") = ("a%2Fb%20c") := by rfl

/-! ## URL templates

The source extracts placeholders with the regular expression `\x7b(\w+)\x7d`
(global), both in `buildUrl` / `validatePlaceholders` and when computing
positional placeholder indices.  A left-to-right scan that, at each opening
brace, matches a maximal non-empty run of word characters followed by a
closing brace is exactly the behaviour of that regex. -/

/-- `\w` of ECMAScript: ASCII letters, digits, underscore. -/
def isWordChar (c : Char) : Bool :=
  (65 ≤ c.toNat && c.toNat ≤ 90) || (97 ≤ c.toNat && c.toNat ≤ 122) ||
  (48 ≤ c.toNat && c.toNat ≤ 57) || c.toNat = 95

/-- Maximal prefix of word characters, and the rest. -/
def wordSpan : List Char → List Char × List Char
  | [] => ([], [])
  | c :: cs => if isWordChar c then ((wordSpan cs).1.cons c, (wordSpan cs).2) else ([], c :: cs)

theorem wordSpan_snd_length (l : List Char) : (wordSpan l).2.length ≤ l.length := by
  induction l with
  | nil => simp [wordSpan]
  | cons c cs ih =>
    by_cases h : isWordChar c
    · simpa [wordSpan, h] using Nat.le_succ_of_le ih
    · simp [wordSpan, h]

/-- A piece of a scanned URL template: a literal character, or a
placeholder `\x7bname\x7d`. -/
inductive TemplatePart where
  | lit (c : Char)
  | hole (name : String)
deriving DecidableEq

/-- Fuel-driven left-to-right scan of a template for `\x7b(\w+)\x7d`
occurrences, as the global regex replace/match of the source performs it.
Each step consumes at least one character, so fuel `l.length` is always
enough (`scanTemplateF_congr`). -/
def scanTemplateF : Nat → List Char → List TemplatePart
  | 0, _ => []
  | _ + 1, [] => []
  | fuel + 1, c :: cs =>
    if c = Char.ofNat 123 then
      match wordSpan cs with
      | (w, r :: rs) =>
        if w ≠ [] ∧ r = Char.ofNat 125 then TemplatePart.hole (String.mk w) :: scanTemplateF fuel rs
        else TemplatePart.lit c :: scanTemplateF fuel cs
      | (_, []) => TemplatePart.lit c :: scanTemplateF fuel cs
    else TemplatePart.lit c :: scanTemplateF fuel cs

theorem scanTemplateF_congr : ∀ (f f' : Nat) (l : List Char),
    l.length ≤ f → l.length ≤ f' → scanTemplateF f l = scanTemplateF f' l := by
  intro f
  induction f with
  | zero =>
    intro f' l hf _
    have : l = [] := List.length_eq_zero.mp (Nat.le_zero.mp hf)
    subst this
    cases f' <;> rfl
  | succ f ih =>
    intro f' l hf hf'
    cases l with
    | nil => cases f' <;> rfl
    | cons c cs =>
      cases f' with
      | zero => simp at hf'
      | succ g =>
        simp only [List.length_cons, Nat.succ_le_succ_iff] at hf hf'
        simp only [scanTemplateF]
        by_cases hb : c = Char.ofNat 123
        · simp only [hb, if_true]
          match hw : wordSpan cs with
          | (w, r :: rs) =>
            have hlen : rs.length ≤ cs.length := by
              have h := wordSpan_snd_length cs
              rw [hw] at h
              simp at h
              omega
            dsimp only
            by_cases hcond : w ≠ [] ∧ r = Char.ofNat 125
            · rw [if_pos hcond, if_pos hcond,
                ih g rs (le_trans hlen hf) (le_trans hlen hf')]
            · rw [if_neg hcond, if_neg hcond, ih g cs hf hf']
          | (w, []) =>
            rw [ih g cs hf hf']
        · simp only [hb, if_false]
          rw [ih g cs hf hf']

/-- The scan with its canonical fuel. -/
def scanTemplate (l : List Char) : List TemplatePart := scanTemplateF l.length l

theorem scanTemplate_nil : scanTemplate [] = [] := rfl

theorem scanTemplate_lit (c : Char) (cs : List Char) (h : c ≠ Char.ofNat 123) :
    scanTemplate (c :: cs) = TemplatePart.lit c :: scanTemplate cs := by
  simp only [scanTemplate, List.length_cons, scanTemplateF, h, if_false]

theorem scanTemplate_hole (cs w : List Char) (r : Char) (rs : List Char)
    (hw : wordSpan cs = (w, r :: rs)) (hne : w ≠ []) (hr : r = Char.ofNat 125) :
    scanTemplate (Char.ofNat 123 :: cs) =
      TemplatePart.hole (String.mk w) :: scanTemplate rs := by
  have hlen : rs.length ≤ cs.length := by
    have h := wordSpan_snd_length cs
    rw [hw] at h
    simp at h
    omega
  simp only [scanTemplate, List.length_cons, scanTemplateF, if_true, hw]
  simp only [hne, hr, and_self, ne_eq, not_false_eq_true, if_true]
  rw [scanTemplateF_congr cs.length rs.length rs hlen le_rfl]

theorem scanTemplate_open_fail (cs : List Char)
    (h : ∀ w r rs, wordSpan cs = (w, r :: rs) → ¬ (w ≠ [] ∧ r = Char.ofNat 125)) :
    scanTemplate (Char.ofNat 123 :: cs) =
      TemplatePart.lit (Char.ofNat 123) :: scanTemplate cs := by
  simp only [scanTemplate, List.length_cons, scanTemplateF, if_true]
  match hw : wordSpan cs with
  | (w, r :: rs) =>
    have := h w r rs hw
    simp only [this, if_false]
  | (w, []) => rfl

/-- The ordered list of placeholder names of a template
(`[...pattern.matchAll(/\x7b(\w+)\x7d/g)].map(m => m[1])`). -/
def placeholdersOf (tpl : String) : List String :=
  (scanTemplate tpl.data).filterMap (fun p =>
    match p with
    | TemplatePart.hole n => some n
    | TemplatePart.lit _ => none)

example : placeholdersOf ("https://g.com/\x7bowner\x7d/x/\x7btag\x7d") = [("owner"), ("tag")] := by rfl
example : placeholdersOf ("\x7bpath-last\x7d") = [] := by rfl

/-- `value.split(sep)` of JavaScript for a single-character separator. -/
def splitOnChar (sep : Char) : List Char → List (List Char)
  | [] => [[]]
  | c :: cs =>
    if c = sep then [] :: splitOnChar sep cs
    else
      match splitOnChar sep cs with
      | [] => [[c]]
      | h :: t => (c :: h) :: t

/-- `parts.join(sep)` of JavaScript. -/
def joinWith (sep : String) : List String → String
  | [] => ("")
  | [s] => s
  | s :: rest => s ++ sep ++ joinWith sep rest

/-- `value.includes(c)` / a character test used for `value.includes('/')`. -/
def hasSlash (value : String) : Bool :=
  value.data.any (fun c => decide (c = Char.ofNat 47))

/-- Substitution of a single placeholder value, as the replacement callback of
`buildUrl` computes it: in positional-parameter mode a value containing `/` is
split on `/`, each piece percent-encoded and rejoined with `/`; otherwise the
whole value is percent-encoded. -/
def renderHole (usePositional : Bool) (value : String) : String :=
  if usePositional && hasSlash value then
    joinWith ("/") ((splitOnChar (Char.ofNat 47) value.data).map (fun p => encodeURIComponent (String.mk p)))
  else encodeURIComponent value

/-- `buildUrl(pattern, params)` of the source: replace every `\x7b(\w+)\x7d`
by the rendered value of `params[key] || ""`. -/
def buildUrl (usePositional : Bool) (tpl : String) (params : List (String × String)) : String :=
  String.join ((scanTemplate tpl.data).map (fun part =>
    match part with
    | TemplatePart.lit c => String.mk [c]
    | TemplatePart.hole k => renderHole usePositional ((jsGet params k).getD (""))))

/-- `validatePlaceholders(pattern, params)` of the source: the first
placeholder whose value is absent or empty (falsy), if any. -/
def validatePlaceholders (tpl : String) (params : List (String × String)) : Option String :=
  (placeholdersOf tpl).find? (fun p => decide ((jsGet params p).getD ("") = ("")))

example :
    buildUrl false ("https://g.com/\x7bowner\x7d/\x7btag\x7d") [(("owner"), ("twbs")), (("tag"), ("v5 x"))] =
      ("https://g.com/twbs/v5%20x") := by rfl

example : buildUrl true ("a/\x7b1\x7d") [(("1"), ("a/b c"))] = ("a/a/b%20c") := by rfl

example :
    validatePlaceholders ("x\x7btag\x7d") [(("other"), ("v"))] = some ("tag") := by rfl

/-! ## Path resolution (`processRequest`, parameter parsing part) -/

/-- `key.endsWith(suffix)` of JavaScript. -/
def strEndsWith (s suffix : String) : Bool := decide (suffix.data <:+ s.data)

/-- `s.slice(0, -n)`: drop the last `n` characters. -/
def sliceDropRight (s : String) (n : Nat) : String :=
  String.mk (s.data.take (s.data.length - n))

/-- Outcome of parsing the path segments into parameters in NAMED mode. -/
inductive ResolveResult where
  | ok (params : List (String × String))
  | errMissingValue (key : String)
  | errOddSegments
deriving DecidableEq

/-- One pass of the NAMED-mode `for (let i = 0; i < segments.length; i += 2)`
loop of `processRequest`: consume key/value pairs; a key ending in `-last`
(with at least one following segment) captures the rest, joined with `/`; a
trailing key with no value is an error.  Returns the parameter object and the
`foundLastParam` flag. -/
def namedConsume (params : List (String × String)) :
    List String → (ResolveResult × Bool)
  | [] => (ResolveResult.ok params, false)
  | [key] => (ResolveResult.errMissingValue key, false)
  | key :: v :: rest =>
    if strEndsWith key ("-last") then
      (ResolveResult.ok (jsSet params (sliceDropRight key 5) (joinWith ("/") (v :: rest))), true)
    else namedConsume (jsSet params key v) rest

/-- NAMED-mode resolution of `processRequest`: run the pair loop, then reject
an odd segment count unless a capture key was found. -/
def resolveNamed (segments : List String) : ResolveResult :=
  match namedConsume [] segments with
  | (ResolveResult.ok params, foundLastParam) =>
    if !foundLastParam && segments.length % 2 ≠ 0 then ResolveResult.errOddSegments
    else ResolveResult.ok params
  | (r, _) => r

example :
    resolveNamed [("owner"), ("twbs"), ("tag"), ("v1")] =
      ResolveResult.ok [(("owner"), ("twbs")), (("tag"), ("v1"))] := by rfl

example :
    resolveNamed [("path-last"), ("docs"), ("api"), ("v1")] =
      ResolveResult.ok [(("path"), ("docs/api/v1"))] := by rfl

example : resolveNamed [("a"), ("1"), ("b")] = ResolveResult.errMissingValue ("b") := by rfl

/-- A digit `0`-`9`. -/
def isDigitChar (c : Char) : Bool := 48 ≤ c.toNat && c.toNat ≤ 57

/-- `/^\d+$/.test(p)` combined with `Number(p)` for placeholder names that are
digit-only: `some` of the numeric value, else `none`. -/
def parseNumeric (p : String) : Option Nat :=
  if p.data ≠ [] ∧ p.data.all isDigitChar then
    some (p.data.foldl (fun acc c => acc * 10 + (c.toNat - 48)) 0)
  else none

/-- `Math.max(...numericPlaceholders)` over the template's digit-only
placeholders; `none` models the empty spread (`-Infinity`), which no loop
index ever equals. -/
def maxNumericPlaceholder (tpl : String) : Option Nat :=
  ((placeholdersOf tpl).filterMap parseNumeric).max?

/-- Fuel-driven little-endian decimal digits of a natural number; fuel `n`
is always enough (`natDigitsF_eq_digits`). -/
def natDigitsF : Nat → Nat → List Nat
  | 0, _ => []
  | fuel + 1, n => if n = 0 then [] else n % 10 :: natDigitsF fuel (n / 10)

theorem natDigitsF_eq_digits : ∀ (fuel n : Nat), n ≤ fuel →
    natDigitsF fuel n = Nat.digits 10 n := by
  intro fuel
  induction fuel with
  | zero =>
    intro n hn
    have : n = 0 := Nat.le_zero.mp hn
    subst this
    simp [natDigitsF]
  | succ f ih =>
    intro n hn
    by_cases h0 : n = 0
    · subst h0
      simp [natDigitsF]
    · have hdiv : n / 10 ≤ f := by
        have := Nat.div_lt_self (Nat.pos_of_ne_zero h0) (by norm_num : 1 < 10)
        omega
      rw [natDigitsF, if_neg h0, ih (n / 10) hdiv,
        Nat.digits_def' (by norm_num : 1 < 10) (Nat.pos_of_ne_zero h0)]

/-- Little-endian decimal digits with canonical fuel. -/
def natDigits (n : Nat) : List Nat := natDigitsF n n

theorem natDigits_eq (n : Nat) : natDigits n = Nat.digits 10 n :=
  natDigitsF_eq_digits n n le_rfl

/-- Decimal printing of a natural number (`paramIndex.toString()`). -/
def natToString (n : Nat) : String :=
  if n = 0 then ("0")
  else String.mk ((natDigits n).reverse.map (fun d => Char.ofNat (48 + d)))

example : natToString 210 = ("210") := by rfl

/-- The POSITIONAL-mode loop of `processRequest`: segment `i` is assigned to
key `(i+1).toString()`, except that when `i+1` equals the maximal numeric
placeholder and further segments remain, the remaining segments are joined
with `/`, assigned, and the loop breaks. -/
def posLoop (maxP : Option Nat) (idx : Nat) (params : List (String × String)) :
    List String → List (String × String)
  | [] => params
  | s :: rest =>
    if maxP = some (idx + 1) ∧ rest ≠ [] then
      jsSet params (natToString (idx + 1)) (joinWith ("/") (s :: rest))
    else posLoop maxP (idx + 1) (jsSet params (natToString (idx + 1)) s) rest

/-- POSITIONAL-mode resolution of `processRequest` (it never fails). -/
def resolvePositional (maxP : Option Nat) (segments : List String) :
    List (String × String) :=
  posLoop maxP 0 [] segments

example :
    resolvePositional (some 2) [("files"), ("docs"), ("readme.md")] =
      [(("1"), ("files")), (("2"), ("docs/readme.md"))] := by rfl

example :
    resolvePositional (some 4) [("a"), ("b")] = [(("1"), ("a")), (("2"), ("b"))] := by rfl

/-! ## Allow-list matcher

`ALLOWED` rules are compiled at startup by replacing every `*` of the
configured value with `.*` and wrapping the result in `^...$` as an
ECMAScript `RegExp`.  The configured value is **not** escaped, so characters
that are regex metacharacters keep their regex meaning.  `RTok`/`rmatch`
embed the semantics of the resulting regexes for configured values built
from `*`, `.` and non-metacharacter literals (the fragment the source can
produce from such values). -/

/-- A token of the compiled rule regex: `.*` (from a configured `*`), `.`
(a configured `.`, not escaped by the source), or a literal character. -/
inductive RTok where
  | star
  | dot
  | lit (c : Char)
deriving DecidableEq

/-- A line terminator of ECMAScript (`.` and `.*` do not match these). -/
def isLineTerm (c : Char) : Bool :=
  c.toNat = 10 || c.toNat = 13 || c.toNat = 8232 || c.toNat = 8233

/-- Compile a configured wildcard value as the source does
(`value.replace(/\*/g, ".*")` inside `^...$`), for values whose characters
are `*`, `.` or non-metacharacter literals. -/
def compileAllowed (w : String) : List RTok :=
  w.data.map (fun c =>
    if c.toNat = 42 then RTok.star else if c.toNat = 46 then RTok.dot else RTok.lit c)

/-- Fuel-driven anchored regex matching of the compiled tokens against a
value; every step shrinks `ts.length + cs.length`, so fuel
`ts.length + cs.length + 1` is always enough (`rmatchF_congr`). -/
def rmatchF : Nat → List RTok → List Char → Bool
  | 0, _, _ => false
  | _ + 1, [], [] => true
  | _ + 1, [], _ :: _ => false
  | _ + 1, RTok.dot :: _, [] => false
  | fuel + 1, RTok.dot :: ts, c :: cs => !isLineTerm c && rmatchF fuel ts cs
  | _ + 1, RTok.lit _ :: _, [] => false
  | fuel + 1, RTok.lit a :: ts, c :: cs => decide (a = c) && rmatchF fuel ts cs
  | fuel + 1, RTok.star :: ts, [] => rmatchF fuel ts []
  | fuel + 1, RTok.star :: ts, c :: cs =>
    rmatchF fuel ts (c :: cs) || (!isLineTerm c && rmatchF fuel (RTok.star :: ts) cs)

theorem rmatchF_congr : ∀ (f f' : Nat) (ts : List RTok) (cs : List Char),
    ts.length + cs.length < f → ts.length + cs.length < f' →
    rmatchF f ts cs = rmatchF f' ts cs := by
  intro f
  induction f with
  | zero => intro f' ts cs hf _; omega
  | succ f ih =>
    intro f' ts cs hf hf'
    cases f' with
    | zero => omega
    | succ g =>
      match ts, cs with
      | [], [] => rfl
      | [], _ :: _ => rfl
      | RTok.dot :: _, [] => rfl
      | RTok.dot :: ts, c :: cs =>
        simp only [rmatchF]
        simp only [List.length_cons] at hf hf'
        rw [ih g ts cs (by omega) (by omega)]
      | RTok.lit a :: _, [] => rfl
      | RTok.lit a :: ts, c :: cs =>
        simp only [rmatchF]
        simp only [List.length_cons] at hf hf'
        rw [ih g ts cs (by omega) (by omega)]
      | RTok.star :: ts, [] =>
        simp only [rmatchF]
        simp only [List.length_cons] at hf hf'
        rw [ih g ts [] (by simp; omega) (by simp; omega)]
      | RTok.star :: ts, c :: cs =>
        simp only [rmatchF]
        simp only [List.length_cons] at hf hf'
        rw [ih g ts (c :: cs) (by simp; omega) (by simp; omega),
          ih g (RTok.star :: ts) cs (by simp; omega) (by simp; omega)]

/-- Anchored regex matching with canonical fuel (ECMAScript `regex.test`,
with the whole value consumed because of the `^`/`$` anchors). -/
def rmatch (ts : List RTok) (cs : List Char) : Bool :=
  rmatchF (ts.length + cs.length + 1) ts cs

example : rmatch (compileAllowed ("facebook*")) ("facebook-rn").data = true := by decide
example : rmatch (compileAllowed ("facebook*")) ("myfacebook").data = false := by decide

/-- One rule is satisfied iff every constraint's parameter is present, truthy
and matched (`Object.entries(rule).every(([k, regex]) => params[k] &&
regex.test(params[k]))`). -/
def ruleSatisfied (params : List (String × String)) (rule : List (String × List RTok)) : Bool :=
  rule.all (fun kp =>
    match jsGet params kp.1 with
    | some v => decide (v ≠ ("")) && rmatch kp.2 v.data
    | none => false)

/-- `isAllowed(params)` of the source. -/
def isAllowed (rules : List (List (String × List RTok)))
    (params : List (String × String)) : Bool :=
  rules.isEmpty || rules.any (ruleSatisfied params)

/-- A token of the matcher the specification describes: `*` matches any
substring, every other character matches only itself literally.
Modelled from the spec (for comparison against the compiled regex the
source actually builds); not part of the source. -/
inductive STok where
  | any
  | lit (c : Char)
deriving DecidableEq

/-- Compile a wildcard value as the specification words it. -/
def compileSpecWildcard (w : String) : List STok :=
  w.data.map (fun c => if c.toNat = 42 then STok.any else STok.lit c)

/-- Fuel-driven anchored matching for the spec-side wildcard matcher. -/
def smatchF : Nat → List STok → List Char → Bool
  | 0, _, _ => false
  | _ + 1, [], [] => true
  | _ + 1, [], _ :: _ => false
  | _ + 1, STok.lit _ :: _, [] => false
  | fuel + 1, STok.lit a :: ts, c :: cs => decide (a = c) && smatchF fuel ts cs
  | fuel + 1, STok.any :: ts, [] => smatchF fuel ts []
  | fuel + 1, STok.any :: ts, c :: cs =>
    smatchF fuel ts (c :: cs) || smatchF fuel (STok.any :: ts) cs

/-- Spec-side anchored wildcard match with canonical fuel. -/
def smatch (ts : List STok) (cs : List Char) : Bool :=
  smatchF (ts.length + cs.length + 1) ts cs

/-- The spec's wildcard matcher applied to a configured value and a
parameter value. -/
def wildcardMatchSpec (w v : String) : Bool :=
  smatch (compileSpecWildcard w) v.data

example : wildcardMatchSpec ("facebook*") ("facebook-rn") = true := by decide
example : wildcardMatchSpec ("facebook*") ("myfacebook") = false := by decide

/-! ## Request pipeline (`processRequest` before the cache/fetch phase) -/

/-- Where `processRequest` ends up before touching cache or network:
an error response, or proceeding to the cache/fetch phase with the built
target URL. -/
inductive Outcome where
  | badPath (msg : String)
  | missingParam (name : String)
  | forbidden
  | proceed (targetUrl : String)
deriving DecidableEq

/-- Parameter parsing of `processRequest` in the configured mode. -/
def resolveSegments (usePositional : Bool) (tpl : String) (segments : List String) :
    ResolveResult :=
  if usePositional then
    ResolveResult.ok (resolvePositional (maxNumericPlaceholder tpl) segments)
  else resolveNamed segments

/-- `processRequest` up to (and excluding) the cache lookup and upstream
fetch: resolve, validate placeholders, check the allow-list, build the URL. -/
def processPipeline (usePositional : Bool) (tpl : String)
    (rules : List (List (String × List RTok))) (segments : List String) : Outcome :=
  match resolveSegments usePositional tpl segments with
  | ResolveResult.errMissingValue key => Outcome.badPath (("Missing value for key: ") ++ key)
  | ResolveResult.errOddSegments => Outcome.badPath ("Invalid number of URL segments")
  | ResolveResult.ok params =>
    match validatePlaceholders tpl params with
    | some missing => Outcome.missingParam missing
    | none =>
      if isAllowed rules params then Outcome.proceed (buildUrl usePositional tpl params)
      else Outcome.forbidden

example :
    processPipeline false ("https://e/\x7btag\x7d") [] [("other"), ("v")] =
      Outcome.missingParam ("tag") := by rfl

/-! ## Startup configuration (`URL_PATTERNS` parsing) -/

/-- Outcome of the startup pattern-table construction: `fatal` models
`logError` followed by `process.exit(1)`. -/
inductive ConfigResult where
  | fatal (msg : String)
  | ok (patterns : List (String × String))
deriving DecidableEq

/-- JavaScript truthiness of an environment variable (`undefined` and the
empty string are falsy). -/
def truthyEnv : Option String → Bool
  | some s => decide (s ≠ (""))
  | none => false

/-- `entry.split("=")` destructured as `[key, url]`, then
`if (key && url) URL_PATTERNS[key] = url`. -/
def addPatternEntry (acc : List (String × String)) (entry : String) : List (String × String) :=
  match (splitOnChar (Char.ofNat 61) entry.data).map String.mk with
  | [] => acc
  | [_] => acc
  | key :: url :: _ => if key ≠ ("") ∧ url ≠ ("") then jsSet acc key url else acc

/-- Parse `URL_PATTERNS` (comma-separated `SERVICE=URL` entries). -/
def parsePatternEntries (env : String) : List (String × String) :=
  ((splitOnChar (Char.ofNat 44) env.data).map String.mk).foldl addPatternEntry []

/-- The startup construction of the pattern table from the two environment
variables (`URL_PATTERNS` / `URL_PATTERN`), including the fatal
configuration checks. -/
def parseUrlPatterns (patternsEnv patternEnv : Option String) : ConfigResult :=
  if truthyEnv patternsEnv && truthyEnv patternEnv then
    ConfigResult.fatal ("Cannot use both URL_PATTERNS and URL_PATTERN environment variables. Use only one.")
  else if !truthyEnv patternsEnv && !truthyEnv patternEnv then
    ConfigResult.fatal ("Missing required environment variable: URL_PATTERNS or URL_PATTERN")
  else if truthyEnv patternsEnv then
    ConfigResult.ok (parsePatternEntries (patternsEnv.getD ("")))
  else ConfigResult.ok [(("DEFAULT"), patternEnv.getD (""))]

example :
    parseUrlPatterns (some ("gh=https://x,gl=https://y")) none =
      ConfigResult.ok [(("gh"), ("https://x")), (("gl"), ("https://y"))] := by rfl

/-! ## Response cache: validity, read, sweep

The cache stores, per service directory, a `<digest>.cache` content file and
a `<digest>.meta` metadata file.  `isCacheValid` checks both files exist and
compares the metadata file's age (from its modification time, which is set
when the entry is written) against the route's timeout; `readCacheFile`
returns `null` when reading or parsing either file fails.  Files are
modelled by name, modification time in epoch milliseconds, a read-success
flag (covering I/O and JSON-parse failures) and their contents. -/

structure FileInfo where
  mtimeMs : Int
  readOk : Bool
  contents : String
deriving DecidableEq

/-- The two file slots `getCacheFilePaths` refers to, as present/absent
filesystem entries. -/
structure CacheFiles where
  content : Option FileInfo
  metadata : Option FileInfo
deriving DecidableEq

/-- `(Date.now() - stats.mtime.getTime()) / 1000` of `isCacheValid`, in
exact rational arithmetic. -/
def cacheAgeSeconds (nowMs : Int) (meta : FileInfo) : ℚ :=
  ((nowMs - meta.mtimeMs : Int) : ℚ) / 1000

/-- `isCacheValid(cacheFilePaths, cacheTimeout)` of the source: both files
exist and the age in seconds is below the timeout. -/
def isCacheValid (files : CacheFiles) (nowMs : Int) (cacheTimeout : Int) : Bool :=
  match files.content, files.metadata with
  | some _, some meta => decide (cacheAgeSeconds nowMs meta < (cacheTimeout : ℚ))
  | _, _ => false

/-- `readCacheFile(cacheFilePaths)` of the source: metadata and content, or
`null` if reading either file (or parsing the metadata) fails. -/
def readCacheFile (files : CacheFiles) : Option (FileInfo × FileInfo) :=
  match files.metadata, files.content with
  | some meta, some content =>
    if meta.readOk && content.readOk then some (meta, content) else none
  | _, _ => none

/-- The cache lookup of `processRequest`: an entry is served only when
`isCacheValid` holds and `readCacheFile` succeeds; otherwise the pipeline
falls through to the fetch (the entry is absent). -/
def cacheLookup (files : CacheFiles) (nowMs : Int) (cacheTimeout : Int) :
    Option (FileInfo × FileInfo) :=
  if isCacheValid files nowMs cacheTimeout then readCacheFile files else none

/-! ## Expiry sweep (`cleanExpiredCacheFiles`)

A service cache directory is a list of named files; the sweep iterates the
directory listing, and for every name ending in `.cache` whose entry fails
`isCacheValid` under the route's timeout it unlinks the content file and the
corresponding `.meta` file and counts one cleaned entry.  Directories whose
service has no positive cache timeout are skipped entirely. -/

/-- `fs.existsSync`/read of a directory entry by name (a directory holds at
most one entry per name; lists model the readdir order). -/
def fsFind (fs : List (String × FileInfo)) (n : String) : Option FileInfo :=
  (fs.find? (fun e => decide (e.1 = n))).map (fun e => e.2)

/-- `fs.unlinkSync` (a no-op when the name is absent, matching the
`existsSync` guard before each unlink). -/
def fsRemove (fs : List (String × FileInfo)) (n : String) : List (String × FileInfo) :=
  fs.filter (fun e => decide (e.1 ≠ n))

/-- `file.endsWith('.cache')`. -/
def isCacheName (n : String) : Bool := strEndsWith n (".cache")

/-- `file.slice(0, -6)`: the digest without the `.cache` extension. -/
def baseOf (n : String) : String := sliceDropRight n 6

/-- The metadata file partnered with a `.cache` file. -/
def metaNameOf (n : String) : String := baseOf n ++ (".meta")

/-- The `cacheFilePaths` the sweep builds for one `.cache` listing entry. -/
def mkCacheFiles (fs : List (String × FileInfo)) (n : String) : CacheFiles :=
  CacheFiles.mk (fsFind fs n) (fsFind fs (metaNameOf n))

/-- Unlink the content file and its metadata partner. -/
def deleteEntry (fs : List (String × FileInfo)) (n : String) : List (String × FileInfo) :=
  fsRemove (fsRemove fs n) (metaNameOf n)

/-- The per-service sweep loop over the snapshot of directory entry names:
every `.cache` name whose entry is not valid has its pair unlinked and is
counted. -/
def sweepLoop (nowMs t : Int) : List String → List (String × FileInfo) →
    List (String × FileInfo) × Nat
  | [], fs => (fs, 0)
  | n :: ns, fs =>
    if isCacheName n then
      if isCacheValid (mkCacheFiles fs n) nowMs t then sweepLoop nowMs t ns fs
      else
        ((sweepLoop nowMs t ns (deleteEntry fs n)).1,
          (sweepLoop nowMs t ns (deleteEntry fs n)).2 + 1)
    else sweepLoop nowMs t ns fs

/-- Sweep one service directory (the name snapshot is the readdir result). -/
def sweepService (nowMs t : Int) (fs : List (String × FileInfo)) :
    List (String × FileInfo) × Nat :=
  sweepLoop nowMs t (fs.map (fun e => e.1)) fs

/-- `cleanExpiredCacheFiles()`: iterate the service directories, skip those
whose configured timeout is missing, zero or negative
(`!cacheTimeout || cacheTimeout <= 0`), sweep the rest, and return the new
state of every directory together with the total number of cleaned
entries. -/
def cleanExpiredCacheFiles (timeouts : List (String × Int)) (nowMs : Int) :
    List (String × List (String × FileInfo)) →
      List (String × List (String × FileInfo)) × Nat
  | [] => ([], 0)
  | d :: ds =>
    match jsGet timeouts d.1 with
    | none =>
      ((d.1, d.2) :: (cleanExpiredCacheFiles timeouts nowMs ds).1,
        (cleanExpiredCacheFiles timeouts nowMs ds).2)
    | some t =>
      if t ≤ 0 then
        ((d.1, d.2) :: (cleanExpiredCacheFiles timeouts nowMs ds).1,
          (cleanExpiredCacheFiles timeouts nowMs ds).2)
      else
        ((d.1, (sweepService nowMs t d.2).1) :: (cleanExpiredCacheFiles timeouts nowMs ds).1,
          (sweepService nowMs t d.2).2 + (cleanExpiredCacheFiles timeouts nowMs ds).2)

/-- A `.cache` listing entry that the sweep would clean, judged against a
fixed directory state: it fails `isCacheValid` (expired, or its metadata
file is missing). -/
def expiredCacheFile (nowMs t : Int) (fs : List (String × FileInfo)) (n : String) : Bool :=
  isCacheName n && !isCacheValid (mkCacheFiles fs n) nowMs t

/-- A file name removed by sweeping the names `ns` against directory state
`fs0`: a cleaned `.cache` file, or the `.meta` partner of one. -/
def sweptName (nowMs t : Int) (fs0 : List (String × FileInfo)) (ns : List String)
    (n : String) : Bool :=
  (decide (n ∈ ns) && expiredCacheFile nowMs t fs0 n) ||
    ns.any (fun c => expiredCacheFile nowMs t fs0 c && decide (n = metaNameOf c))

/-- `toNat` of a `Char.ofNat` below the surrogate range. -/
theorem toNat_charOfNat (n : Nat) (h : n < 55296) : (Char.ofNat n).toNat = n := by
  have hv : n.isValidChar := Or.inl h
  unfold Char.ofNat
  simp [hv, Char.toNat, UInt32.toNat, Char.ofNatAux]

/-! ## Claims C2, C3, C10: NAMED-mode resolution -/

theorem namedConsume_nil (params : List (String × String)) :
    namedConsume params [] = (ResolveResult.ok params, false) := rfl

theorem namedConsume_single (params : List (String × String)) (key : String) :
    namedConsume params [key] = (ResolveResult.errMissingValue key, false) := rfl

theorem namedConsume_capture (params : List (String × String)) (key v : String)
    (rest : List String) (h : strEndsWith key ("-last") = true) :
    namedConsume params (key :: v :: rest) =
      (ResolveResult.ok (jsSet params (sliceDropRight key 5) (joinWith ("/") (v :: rest))), true) := by
  rw [namedConsume, if_pos h]

theorem namedConsume_step (params : List (String × String)) (key v : String)
    (rest : List String) (h : strEndsWith key ("-last") = false) :
    namedConsume params (key :: v :: rest) = namedConsume (jsSet params key v) rest := by
  rw [namedConsume, if_neg (by rw [h]; exact Bool.false_ne_true)]

theorem namedConsume_first_capture : ∀ (i : Nat) (segments : List String)
    (params : List (String × String)),
    i % 2 = 0 → i + 1 < segments.length →
    strEndsWith (segments.getD i ("")) ("-last") = true →
    (∀ j, j % 2 = 0 → j < i → strEndsWith (segments.getD j ("")) ("-last") = false) →
    ∃ params', namedConsume params segments = (ResolveResult.ok params', true) ∧
      jsGet params' (sliceDropRight (segments.getD i ("")) 5) =
        some (joinWith ("/") (segments.drop (i + 1))) := by
  intro i
  induction i using Nat.strong_induction_on with
  | _ i ih =>
    intro segments params hi hlen hkey hfirst
    match segments with
    | [] => simp at hlen
    | [s] => simp at hlen
    | key :: v :: rest =>
      by_cases hi0 : i = 0
      · subst hi0
        rw [List.getD_cons_zero] at hkey
        refine ⟨jsSet params (sliceDropRight key 5) (joinWith ("/") (v :: rest)), ?_, ?_⟩
        · exact namedConsume_capture params key v rest hkey
        · rw [List.getD_cons_zero]
          simp [jsGet_jsSet_self, List.drop]
      · obtain ⟨m, rfl⟩ : ∃ m, i = m + 2 := ⟨i - 2, by omega⟩
        have hkey0 : strEndsWith key ("-last") = false := by
          have := hfirst 0 (by omega) (by omega)
          rwa [List.getD_cons_zero] at this
        rw [namedConsume_step params key v rest hkey0]
        have hgk : (key :: v :: rest).getD (m + 2) ("") = rest.getD m ("") := by
          rw [List.getD_cons_succ, List.getD_cons_succ]
        rw [hgk] at hkey
        obtain ⟨params', hc, hget⟩ := ih m (by omega) rest (jsSet params key v)
          (by omega) (by simp at hlen; omega) hkey
          (by
            intro j hj hlt
            have := hfirst (j + 2) (by omega) (by omega)
            rwa [List.getD_cons_succ, List.getD_cons_succ] at this)
        refine ⟨params', hc, ?_⟩
        rw [hgk]
        rw [show (key :: v :: rest).drop (m + 2 + 1) = rest.drop (m + 1) from by
          rw [List.drop_succ_cons, List.drop_succ_cons]]
        exact hget

/-- C2: in NAMED mode, the first capture key (ending in `-last`) at even
position `i` with at least one following segment makes resolution assign the
de-suffixed key the remaining segments joined with `/`, stop consuming
pairs, and succeed regardless of the parity of the remaining segment
count. -/
theorem resolveNamed_first_capture (segments : List String) (i : Nat)
    (hi : i % 2 = 0) (hlen : i + 1 < segments.length)
    (hkey : strEndsWith (segments.getD i ("")) ("-last") = true)
    (hfirst : ∀ j, j % 2 = 0 → j < i → strEndsWith (segments.getD j ("")) ("-last") = false) :
    ∃ params, resolveNamed segments = ResolveResult.ok params ∧
      jsGet params (sliceDropRight (segments.getD i ("")) 5) =
        some (joinWith ("/") (segments.drop (i + 1))) := by
  obtain ⟨params', hc, hget⟩ := namedConsume_first_capture i segments [] hi hlen hkey hfirst
  refine ⟨params', ?_, hget⟩
  rw [resolveNamed, hc]
  simp

/-- C2, witness: the capture key `path-last` at position 2 of an
odd-length segment list captures `docs/api`. -/
theorem resolveNamed_first_capture_w :
    ∃ params, resolveNamed [("a"), ("1"), ("path-last"), ("docs"), ("api")] =
        ResolveResult.ok params ∧
      jsGet params (sliceDropRight ([("a"), ("1"), ("path-last"), ("docs"), ("api")].getD 2 ("")) 5) =
        some (joinWith ("/") ([("a"), ("1"), ("path-last"), ("docs"), ("api")].drop 3)) :=
  resolveNamed_first_capture [("a"), ("1"), ("path-last"), ("docs"), ("api")] 2
    (by decide) (by decide) (by decide)
    (by
      intro j hj hlt
      have : j = 0 := by omega
      subst this
      decide)

theorem namedConsume_dangling : ∀ (n : Nat) (segments : List String)
    (params : List (String × String)), segments.length = n →
    segments.length % 2 = 1 →
    (∀ j, j % 2 = 0 → j + 1 < segments.length →
      strEndsWith (segments.getD j ("")) ("-last") = false) →
    namedConsume params segments =
      (ResolveResult.errMissingValue (segments.getD (segments.length - 1) ("")), false) := by
  intro n
  induction n using Nat.strong_induction_on with
  | _ n ih =>
    intro segments params hn hodd hfirst
    match segments with
    | [] => simp at hodd
    | [s] => rw [namedConsume_single]; rfl
    | key :: v :: rest =>
      have hrl : rest ≠ [] := by
        intro h
        subst h
        simp at hodd
      have hkey0 : strEndsWith key ("-last") = false := by
        have := hfirst 0 (by omega) (by simp)
        rwa [List.getD_cons_zero] at this
      rw [namedConsume_step params key v rest hkey0]
      have hrec := ih rest.length (by simp at hn; omega) rest (jsSet params key v) rfl
        (by simp at hodd ⊢; omega)
        (by
          intro j hj hlt
          have := hfirst (j + 2) (by omega) (by simp at hlt ⊢; omega)
          rwa [List.getD_cons_succ, List.getD_cons_succ] at this)
      rw [hrec]
      obtain ⟨m, hm⟩ : ∃ m, rest.length = m + 1 :=
        ⟨rest.length - 1, by cases rest with | nil => exact absurd rfl hrl | cons _ _ => simp⟩
      rw [show (key :: v :: rest).length - 1 = rest.length + 1 from by simp,
        List.getD_cons_succ, hm, List.getD_cons_succ]
      simp

/-- C10: in NAMED mode a trailing capture key (ending in `-last`, at the
final even position, with no segments after it) is not assigned an empty
capture; resolution fails with the dangling-key error naming that key
(provided no earlier even-position key triggers a capture first). -/
theorem pipeline_dangling_capture_key (tpl : String)
    (rules : List (List (String × List RTok))) (segments : List String)
    (hodd : segments.length % 2 = 1)
    (_hkey : strEndsWith (segments.getD (segments.length - 1) ("")) ("-last") = true)
    (hfirst : ∀ j, j % 2 = 0 → j + 1 < segments.length →
      strEndsWith (segments.getD j ("")) ("-last") = false) :
    processPipeline false tpl rules segments =
      Outcome.badPath (("Missing value for key: ") ++ segments.getD (segments.length - 1) ("")) := by
  have hc := namedConsume_dangling segments.length segments [] rfl hodd hfirst
  have hres : resolveSegments false tpl segments =
      ResolveResult.errMissingValue (segments.getD (segments.length - 1) ("")) := by
    rw [resolveSegments]
    simp only [Bool.false_eq_true, if_false]
    rw [resolveNamed, hc]
  rw [processPipeline, hres]

/-- C10, witness: the segment list `a/1/path-last` ends in a dangling
capture key and yields the 400 missing-value error naming `path-last`. -/
theorem pipeline_dangling_capture_key_w :
    processPipeline false ("x") [] [("a"), ("1"), ("path-last")] =
      Outcome.badPath (("Missing value for key: ") ++ [("a"), ("1"), ("path-last")].getD 2 ("")) :=
  pipeline_dangling_capture_key ("x") [] [("a"), ("1"), ("path-last")]
    (by decide) (by decide)
    (by
      intro j hj hlt
      have : j = 0 := by simp at hlt; omega
      subst this
      decide)

theorem namedConsume_pairs : ∀ (n : Nat) (segments : List String)
    (params : List (String × String)), segments.length = n →
    segments.length % 2 = 0 →
    (∀ j, j % 2 = 0 → j < segments.length →
      strEndsWith (segments.getD j ("")) ("-last") = false) →
    (∀ j, j % 2 = 0 → j < segments.length → jsGet params (segments.getD j ("")) = none) →
    (∀ j j', j % 2 = 0 → j' % 2 = 0 → j < j' → j' < segments.length →
      segments.getD j ("") ≠ segments.getD j' ("")) →
    ∃ result, namedConsume params segments = (ResolveResult.ok result, false) ∧
      result.length = params.length + segments.length / 2 ∧
      (∀ j, j % 2 = 0 → j < segments.length →
        jsGet result (segments.getD j ("")) = some (segments.getD (j + 1) (""))) ∧
      (∀ k, (∀ j, j % 2 = 0 → j < segments.length → k ≠ segments.getD j ("")) →
        jsGet result k = jsGet params k) := by
  intro n
  induction n using Nat.strong_induction_on with
  | _ n ih =>
    intro segments params hn heven hnolast hfresh hdist
    match segments with
    | [] =>
      refine ⟨params, namedConsume_nil params, by simp, ?_, ?_⟩
      · intro j _ hlt
        simp at hlt
      · intro k _
        rfl
    | [s] => simp at heven
    | key :: v :: rest =>
      have hkey0 : strEndsWith key ("-last") = false := by
        have := hnolast 0 (by omega) (by simp)
        rwa [List.getD_cons_zero] at this
      rw [namedConsume_step params key v rest hkey0]
      have hfresh0 : jsGet params key = none := by
        have := hfresh 0 (by omega) (by simp)
        rwa [List.getD_cons_zero] at this
      have hkeyfresh : ∀ j, j % 2 = 0 → j < rest.length → key ≠ rest.getD j ("") := by
        intro j hj hlt
        have := hdist 0 (j + 2) (by omega) (by omega) (by omega) (by simp; omega)
        rwa [List.getD_cons_zero, List.getD_cons_succ, List.getD_cons_succ] at this
      obtain ⟨result, hc, hlen, hget, hpres⟩ := ih rest.length (by simp at hn; omega) rest
        (jsSet params key v) rfl (by simp at heven ⊢; omega)
        (by
          intro j hj hlt
          have := hnolast (j + 2) (by omega) (by simp; omega)
          rwa [List.getD_cons_succ, List.getD_cons_succ] at this)
        (by
          intro j hj hlt
          rw [jsGet_jsSet_ne params key _ v (fun h => hkeyfresh j hj hlt h.symm)]
          have := hfresh (j + 2) (by omega) (by simp; omega)
          rwa [List.getD_cons_succ, List.getD_cons_succ] at this)
        (by
          intro j j' hj hj' hlt hlt'
          have := hdist (j + 2) (j' + 2) (by omega) (by omega) (by omega) (by simp; omega)
          rwa [List.getD_cons_succ, List.getD_cons_succ, List.getD_cons_succ,
            List.getD_cons_succ] at this)
      refine ⟨result, hc, ?_, ?_, ?_⟩
      · rw [hlen, length_jsSet_of_not_mem params key v hfresh0]
        simp at heven ⊢
        omega
      · intro j hj hlt
        by_cases hj0 : j = 0
        · subst hj0
          rw [List.getD_cons_zero, List.getD_cons_succ, List.getD_cons_zero]
          rw [hpres key (fun j' hj' hlt' h => hkeyfresh j' hj' hlt' h),
            jsGet_jsSet_self]
        · obtain ⟨m, rfl⟩ : ∃ m, j = m + 2 := ⟨j - 2, by omega⟩
          rw [List.getD_cons_succ, List.getD_cons_succ,
            show m + 2 + 1 = (m + 1) + 1 + 1 from rfl,
            List.getD_cons_succ, List.getD_cons_succ]
          exact hget m (by omega) (by simp at hlt; omega)
      · intro k hk
        have hkne : k ≠ key := by
          have := hk 0 (by omega) (by simp)
          rwa [List.getD_cons_zero] at this
        rw [hpres k (by
          intro j hj hlt
          have := hk (j + 2) (by omega) (by simp; omega)
          rwa [List.getD_cons_succ, List.getD_cons_succ] at this)]
        exact jsGet_jsSet_ne params key k v hkne

/-- C3, counterexample: with duplicate keys (`a/1/a/2`) the parameter map
has a single binding `a -> 2`, so its size is 1 rather than
`segments.length / 2 = 2` and position 0 is not mapped to `1`. -/
theorem resolveNamed_duplicate_keys_cex :
    resolveNamed [("a"), ("1"), ("a"), ("2")] = ResolveResult.ok [(("a"), ("2"))] ∧
    [(("a"), ("2"))].length ≠ [("a"), ("1"), ("a"), ("2")].length / 2 ∧
    jsGet [(("a"), ("2"))] ("a") ≠ some ("1") := by decide

/-- C3 (amended): in NAMED mode an even-length segment list with no capture
key and **pairwise distinct keys** resolves to a parameter map of size
`segments.length / 2` in which every even position's key maps to the
following segment (with duplicate keys, later value assignments overwrite
earlier ones and the map is smaller). -/
theorem resolveNamed_even_pairs (segments : List String)
    (heven : segments.length % 2 = 0)
    (hnolast : ∀ j, j % 2 = 0 → j < segments.length →
      strEndsWith (segments.getD j ("")) ("-last") = false)
    (hdist : ∀ j j', j % 2 = 0 → j' % 2 = 0 → j < j' → j' < segments.length →
      segments.getD j ("") ≠ segments.getD j' ("")) :
    ∃ params, resolveNamed segments = ResolveResult.ok params ∧
      params.length = segments.length / 2 ∧
      ∀ j, j % 2 = 0 → j < segments.length →
        jsGet params (segments.getD j ("")) = some (segments.getD (j + 1) ("")) := by
  obtain ⟨result, hc, hlen, hget, _⟩ := namedConsume_pairs segments.length segments [] rfl
    heven hnolast (fun _ _ _ => rfl) hdist
  refine ⟨result, ?_, by simpa using hlen, hget⟩
  rw [resolveNamed, hc]
  simp [heven]

/-- C3, witness: `owner/twbs/tag/v1` resolves to a two-entry map with both
pairs present. -/
theorem resolveNamed_even_pairs_w :
    ∃ params, resolveNamed [("owner"), ("twbs"), ("tag"), ("v1")] = ResolveResult.ok params ∧
      params.length = [("owner"), ("twbs"), ("tag"), ("v1")].length / 2 ∧
      ∀ j, j % 2 = 0 → j < [("owner"), ("twbs"), ("tag"), ("v1")].length →
        jsGet params ([("owner"), ("twbs"), ("tag"), ("v1")].getD j ("")) =
          some ([("owner"), ("twbs"), ("tag"), ("v1")].getD (j + 1) ("")) :=
  resolveNamed_even_pairs [("owner"), ("twbs"), ("tag"), ("v1")] (by decide)
    (by
      intro j hj hlt
      have : j = 0 ∨ j = 2 := by simp at hlt; omega
      rcases this with h | h <;> subst h <;> decide)
    (by
      intro j j' hj hj' hlt hlt'
      have : j = 0 ∧ j' = 2 := by simp at hlt'; omega
      obtain ⟨h, h'⟩ := this
      subst h; subst h'
      decide)

/-! ## Claim C9: the expiry sweep — helper lemmas -/

theorem baseOf_data (n : String) (h : isCacheName n = true) :
    (baseOf n).data ++ (".cache").data = n.data := by
  rw [isCacheName, strEndsWith] at h
  obtain ⟨t, ht⟩ := of_decide_eq_true h
  rw [baseOf, sliceDropRight]
  have hdata : n.data = t ++ (".cache").data := ht.symm
  rw [show (String.mk (n.data.take (n.data.length - 6))).data =
      n.data.take (n.data.length - 6) from rfl, hdata]
  rw [show (t ++ (".cache").data).length - 6 = t.length from by simp]
  rw [List.take_left]

theorem cacheName_inj (m n : String) (hm : isCacheName m = true) (hn : isCacheName n = true)
    (h : baseOf m = baseOf n) : m = n := by
  have hm' := baseOf_data m hm
  have hn' := baseOf_data n hn
  have hd : m.data = n.data := by rw [← hm', ← hn', h]
  cases m with
  | mk md =>
    cases n with
    | mk nd =>
      simp at hd
      rw [hd]

theorem metaNameOf_ne_cacheName (c n : String) (hn : isCacheName n = true) :
    metaNameOf c ≠ n := by
  intro h
  rw [isCacheName, strEndsWith] at hn
  obtain ⟨t, ht⟩ := of_decide_eq_true hn
  have hlast_n : n.data.getLast? = some (Char.ofNat 101) := by
    rw [← ht, List.getLast?_append_of_ne_nil t (by simp)]
    rfl
  have hlast_m : (metaNameOf c).data.getLast? = some (Char.ofNat 97) := by
    rw [metaNameOf, String.data_append,
      List.getLast?_append_of_ne_nil (baseOf c).data (by simp)]
    rfl
  rw [h, hlast_n] at hlast_m
  exact absurd hlast_m (by decide)

theorem metaNameOf_inj (c c' : String) (hc : isCacheName c = true)
    (hc' : isCacheName c' = true) (h : metaNameOf c = metaNameOf c') : c = c' := by
  rw [metaNameOf, metaNameOf] at h
  have hd := congrArg String.data h
  rw [String.data_append, String.data_append] at hd
  have hbase := List.append_cancel_right hd
  refine cacheName_inj c c' hc hc' ?_
  cases hb : baseOf c with
  | mk a =>
    cases hb' : baseOf c' with
    | mk b =>
      rw [hb, hb'] at hbase
      simp at hbase
      rw [hbase]

theorem fsFind_fsRemove_ne (fs : List (String × FileInfo)) (n m : String) (h : m ≠ n) :
    fsFind (fsRemove fs n) m = fsFind fs m := by
  induction fs with
  | nil => rfl
  | cons e es ih =>
    rw [fsRemove, List.filter_cons]
    by_cases he : e.1 = n
    · rw [if_neg (by simp [he])]
      rw [show fsFind (e :: es) m = fsFind es m from by
        rw [fsFind, fsFind, List.find?_cons, show (decide (e.1 = m)) = false from by
          simp [he]
          intro hc
          exact h hc.symm]]
      exact ih
    · rw [if_pos (by simp [he])]
      rw [fsFind, fsFind, List.find?_cons, List.find?_cons]
      by_cases hem : e.1 = m
      · simp [hem]
      · rw [show (decide (e.1 = m)) = false from by simp [hem]]
        exact ih

theorem fsFind_deleteEntry (fs : List (String × FileInfo)) (n m : String)
    (h1 : m ≠ n) (h2 : m ≠ metaNameOf n) :
    fsFind (deleteEntry fs n) m = fsFind fs m := by
  rw [deleteEntry, fsFind_fsRemove_ne _ _ _ h2, fsFind_fsRemove_ne _ _ _ h1]

theorem expiredCacheFile_congr (nowMs t : Int) (fs fs' : List (String × FileInfo)) (n : String)
    (h1 : fsFind fs n = fsFind fs' n)
    (h2 : fsFind fs (metaNameOf n) = fsFind fs' (metaNameOf n)) :
    expiredCacheFile nowMs t fs n = expiredCacheFile nowMs t fs' n := by
  rw [expiredCacheFile, expiredCacheFile, mkCacheFiles, mkCacheFiles, h1, h2]

/-! ## Claim C4: POSITIONAL-mode resolution -/

theorem foldl_mul_add_reverse : ∀ (l : List Nat) (acc : Nat),
    l.reverse.foldl (fun a d => a * 10 + d) acc = acc * 10 ^ l.length + Nat.ofDigits 10 l := by
  intro l
  induction l with
  | nil => intro acc; simp
  | cons d t ih =>
    intro acc
    rw [List.reverse_cons, List.foldl_append, ih acc, List.foldl_cons, List.foldl_nil,
      Nat.ofDigits_cons, List.length_cons]
    ring

theorem foldl_digit_chars (l : List Nat) (hl : ∀ d ∈ l, d < 10) : ∀ (acc : Nat),
    l.foldl (fun a d => a * 10 + ((Char.ofNat (48 + d)).toNat - 48)) acc =
      l.foldl (fun a d => a * 10 + d) acc := by
  induction l with
  | nil => intro acc; rfl
  | cons d t ih =>
    intro acc
    rw [List.foldl_cons, List.foldl_cons,
      toNat_charOfNat (48 + d) (by have := hl d (List.mem_cons_self _ _); omega)]
    simp only [Nat.add_sub_cancel_left]
    exact ih (fun d' hd' => hl d' (List.mem_cons_of_mem _ hd')) _

theorem parseNumeric_natToString (n : Nat) : parseNumeric (natToString n) = some n := by
  by_cases h0 : n = 0
  · subst h0
    rfl
  · rw [natToString, if_neg h0, parseNumeric]
    have hdig : ∀ d ∈ natDigits n, d < 10 := by
      intro d hd
      rw [natDigits_eq] at hd
      exact Nat.digits_lt_base (by norm_num) hd
    have hne : natDigits n ≠ [] := by
      rw [natDigits_eq]
      exact Nat.digits_ne_nil_iff_ne_zero.mpr h0
    have hdata : (String.mk ((natDigits n).reverse.map (fun d => Char.ofNat (48 + d)))).data =
        (natDigits n).reverse.map (fun d => Char.ofNat (48 + d)) := rfl
    rw [hdata]
    have hcond : (natDigits n).reverse.map (fun d => Char.ofNat (48 + d)) ≠ [] ∧
        ((natDigits n).reverse.map (fun d => Char.ofNat (48 + d))).all isDigitChar := by
      constructor
      · simp [hne]
      · rw [List.all_eq_true]
        intro ch hch
        simp only [List.mem_map, List.mem_reverse] at hch
        obtain ⟨d, hd, hcheq⟩ := hch
        have hd10 := hdig d hd
        rw [← hcheq, isDigitChar, toNat_charOfNat (48 + d) (by omega)]
        simp
        omega
    rw [if_pos hcond]
    congr 1
    rw [List.foldl_map]
    have := foldl_digit_chars (natDigits n).reverse
      (by intro d hd; exact hdig d (List.mem_reverse.mp hd)) 0
    rw [this, foldl_mul_add_reverse (natDigits n) 0, natDigits_eq, Nat.ofDigits_digits]
    simp

theorem natToString_inj (a b : Nat) (h : natToString a = natToString b) : a = b := by
  have ha := parseNumeric_natToString a
  rw [h, parseNumeric_natToString b] at ha
  exact ((Option.some.injEq _ _).mp ha).symm

theorem posLoop_nil (maxP : Option Nat) (idx : Nat) (params : List (String × String)) :
    posLoop maxP idx params [] = params := rfl

theorem posLoop_preserve (maxP : Option Nat) : ∀ (l : List String) (idx : Nat)
    (params : List (String × String)) (k : String),
    (∀ j, idx < j → k ≠ natToString j) →
    jsGet (posLoop maxP idx params l) k = jsGet params k := by
  intro l
  induction l with
  | nil => intro idx params k _; rfl
  | cons s rest ih =>
    intro idx params k h
    simp only [posLoop]
    by_cases hc : maxP = some (idx + 1) ∧ rest ≠ []
    · rw [if_pos hc, jsGet_jsSet_ne _ _ _ _ (h (idx + 1) (by omega))]
    · rw [if_neg hc, ih (idx + 1) _ k (fun j hj => h j (by omega)),
        jsGet_jsSet_ne _ _ _ _ (h (idx + 1) (by omega))]

theorem posLoop_getM (M : Nat) : ∀ (l : List String) (idx : Nat)
    (params : List (String × String)),
    idx + 1 ≤ M → M ≤ idx + l.length →
    jsGet (posLoop (some M) idx params l) (natToString M) =
      some (joinWith ("/") (l.drop (M - idx - 1))) := by
  intro l
  induction l with
  | nil =>
    intro idx params h1 h2
    simp at h2
    omega
  | cons s rest ih =>
    intro idx params h1 h2
    simp only [posLoop]
    by_cases heq : M = idx + 1
    · subst heq
      by_cases hr : rest = []
      · subst hr
        rw [if_neg (by simp), posLoop_nil, jsGet_jsSet_self]
        simp [joinWith]
      · rw [if_pos ⟨rfl, hr⟩, jsGet_jsSet_self]
        simp
    · have hlt : idx + 1 < M := by omega
      rw [if_neg (by
        rintro ⟨hc, -⟩
        exact heq (Option.some.injEq _ _ |>.mp hc))]
      rw [ih (idx + 1) _ (by omega) (by simp at h2 ⊢; omega)]
      rw [show M - idx - 1 = (M - (idx + 1) - 1) + 1 from by omega, List.drop_succ_cons]

theorem posLoop_getLow (M : Nat) : ∀ (l : List String) (idx : Nat)
    (params : List (String × String)) (i : Nat),
    idx < i → i < M → i ≤ idx + l.length →
    jsGet (posLoop (some M) idx params l) (natToString i) = some (l.getD (i - idx - 1) ("")) := by
  intro l
  induction l with
  | nil =>
    intro idx params i h1 _ h3
    simp at h3
    omega
  | cons s rest ih =>
    intro idx params i h1 h2 h3
    simp only [posLoop]
    rw [if_neg (by
      rintro ⟨hc, -⟩
      have : M = idx + 1 := Option.some.injEq _ _ |>.mp hc
      omega)]
    by_cases hi : i = idx + 1
    · subst hi
      rw [posLoop_preserve (some M) rest (idx + 1) _ (natToString (idx + 1))
        (fun j hj habs => by have := natToString_inj _ _ habs; omega)]
      rw [jsGet_jsSet_self]
      simp
    · rw [ih (idx + 1) _ i (by omega) h2 (by simp at h3 ⊢; omega)]
      rw [show i - idx - 1 = (i - (idx + 1) - 1) + 1 from by omega, List.getD_cons_succ]

theorem posLoop_keys (maxP : Option Nat) : ∀ (l : List String) (idx : Nat)
    (params : List (String × String)) (k : String) (v : String),
    jsGet (posLoop maxP idx params l) k = some v →
    jsGet params k = some v ∨ ∃ j, idx < j ∧ j ≤ idx + l.length ∧ k = natToString j := by
  intro l
  induction l with
  | nil =>
    intro idx params k v h
    exact Or.inl h
  | cons s rest ih =>
    intro idx params k v h
    simp only [posLoop] at h
    by_cases hc : maxP = some (idx + 1) ∧ rest ≠ []
    · rw [if_pos hc] at h
      by_cases hk : k = natToString (idx + 1)
      · exact Or.inr ⟨idx + 1, by omega, by simp, hk⟩
      · rw [jsGet_jsSet_ne _ _ _ _ hk] at h
        exact Or.inl h
    · rw [if_neg hc] at h
      rcases ih (idx + 1) _ k v h with h' | ⟨j, hj1, hj2, hj3⟩
      · by_cases hk : k = natToString (idx + 1)
        · exact Or.inr ⟨idx + 1, by omega, by simp, hk⟩
        · rw [jsGet_jsSet_ne _ _ _ _ hk] at h'
          exact Or.inl h'
      · exact Or.inr ⟨j, by omega, by simp at hj2 ⊢; omega, hj3⟩

/-- C4: in POSITIONAL mode with maximal numeric placeholder index `M ≥ 1`:
when `segments.length ≥ M`, index `M` resolves to `segments[M-1..]` joined
with `/` and each index `1..M-1` to its single segment; when
`segments.length < M`, the request fails with the missing-parameter
validation error before the fetch. -/
theorem positional_capture_and_missing (tpl : String)
    (rules : List (List (String × List RTok))) (segments : List String) (M : Nat)
    (hmax : maxNumericPlaceholder tpl = some M) (hM : 1 ≤ M) :
    (M ≤ segments.length →
      jsGet (resolvePositional (some M) segments) (natToString M) =
        some (joinWith ("/") (segments.drop (M - 1))) ∧
      ∀ i, 1 ≤ i → i < M →
        jsGet (resolvePositional (some M) segments) (natToString i) =
          some (segments.getD (i - 1) (""))) ∧
    (segments.length < M →
      ∃ missing, processPipeline true tpl rules segments = Outcome.missingParam missing) := by
  constructor
  · intro hlen
    constructor
    · have := posLoop_getM M segments 0 [] hM (by omega)
      rw [resolvePositional]
      simpa using this
    · intro i h1 hi
      have := posLoop_getLow M segments 0 [] i (by omega) hi (by omega)
      rw [resolvePositional]
      simpa using this
  · intro hlen
    obtain ⟨p, hp_mem, hp⟩ : ∃ p ∈ placeholdersOf tpl, parseNumeric p = some M := by
      rw [maxNumericPlaceholder] at hmax
      have hmem : M ∈ (placeholdersOf tpl).filterMap parseNumeric := List.max?_mem
        (fun a b => max_choice a b) hmax
      obtain ⟨p, hmem', hp⟩ := List.mem_filterMap.mp hmem
      exact ⟨p, hmem', hp⟩
    have hnone : jsGet (resolvePositional (some M) segments) p = none := by
      match hg : jsGet (resolvePositional (some M) segments) p with
      | none => rfl
      | some v =>
        rw [resolvePositional] at hg
        rcases posLoop_keys (some M) segments 0 [] p v hg with h' | ⟨j, hj1, hj2, hj3⟩
        · exact absurd h' (by simp)
        · subst hj3
          rw [parseNumeric_natToString] at hp
          have : j = M := (Option.some.injEq _ _).mp hp
          omega
    have hfind : ((placeholdersOf tpl).find? (fun q =>
        decide ((jsGet (resolvePositional (some M) segments) q).getD ("") = ("")))).isSome := by
      rw [List.find?_isSome]
      exact ⟨p, hp_mem, by rw [hnone]; rfl⟩
    obtain ⟨missing, hm⟩ := Option.isSome_iff_exists.mp hfind
    refine ⟨missing, ?_⟩
    have hres : resolveSegments true tpl segments =
        ResolveResult.ok (resolvePositional (some M) segments) := by
      rw [resolveSegments, if_pos rfl, hmax]
    rw [processPipeline, hres]
    dsimp only
    rw [show validatePlaceholders tpl (resolvePositional (some M) segments) = some missing from hm]

/-- C4, witness: template `\x7b2\x7d` (so `M = 2`) against three segments —
index 2 captures `b/c`, index 1 keeps its single segment. -/
theorem positional_capture_and_missing_w :
    jsGet (resolvePositional (some 2) [("a"), ("b"), ("c")]) (natToString 2) =
      some (joinWith ("/") ([("a"), ("b"), ("c")].drop (2 - 1))) ∧
    ∀ i, 1 ≤ i → i < 2 →
      jsGet (resolvePositional (some 2) [("a"), ("b"), ("c")]) (natToString i) =
        some ([("a"), ("b"), ("c")].getD (i - 1) ("")) :=
  (positional_capture_and_missing ("\x7b2\x7d") [] [("a"), ("b"), ("c")] 2
    (by rfl) (by omega)).1 (by decide)

/-! ## Claim C5: the allow-list matcher -/

theorem rmatch_nil_nil : rmatch [] [] = true := rfl

theorem rmatch_nil_cons (c : Char) (cs : List Char) : rmatch [] (c :: cs) = false := rfl

theorem rmatch_dot_nil (ts : List RTok) : rmatch (RTok.dot :: ts) [] = false := rfl

theorem rmatch_lit_nil (a : Char) (ts : List RTok) : rmatch (RTok.lit a :: ts) [] = false := rfl

theorem rmatch_dot_cons (ts : List RTok) (c : Char) (cs : List Char) :
    rmatch (RTok.dot :: ts) (c :: cs) = (!isLineTerm c && rmatch ts cs) := by
  rw [rmatch, rmatch]
  simp only [List.length_cons, rmatchF]
  rw [rmatchF_congr (ts.length + 1 + (cs.length + 1)) (ts.length + cs.length + 1) ts cs
    (by omega) (by omega)]

theorem rmatch_lit_cons (a : Char) (ts : List RTok) (c : Char) (cs : List Char) :
    rmatch (RTok.lit a :: ts) (c :: cs) = (decide (a = c) && rmatch ts cs) := by
  rw [rmatch, rmatch]
  simp only [List.length_cons, rmatchF]
  rw [rmatchF_congr (ts.length + 1 + (cs.length + 1)) (ts.length + cs.length + 1) ts cs
    (by omega) (by omega)]

theorem rmatch_star_nil (ts : List RTok) : rmatch (RTok.star :: ts) [] = rmatch ts [] := by
  rw [rmatch, rmatch]
  simp only [List.length_cons, List.length_nil, rmatchF]

theorem rmatch_star_cons (ts : List RTok) (c : Char) (cs : List Char) :
    rmatch (RTok.star :: ts) (c :: cs) =
      (rmatch ts (c :: cs) || (!isLineTerm c && rmatch (RTok.star :: ts) cs)) := by
  rw [rmatch, rmatch, rmatch]
  simp only [List.length_cons, rmatchF]
  rw [rmatchF_congr (ts.length + 1 + (cs.length + 1)) (ts.length + (cs.length + 1) + 1) ts (c :: cs)
    (by simp) (by simp [Nat.lt_succ_iff]),
    rmatchF_congr (ts.length + 1 + (cs.length + 1)) (ts.length + 1 + cs.length + 1)
      (RTok.star :: ts) cs (by simp) (by simp)]

theorem smatchF_congr : ∀ (f f' : Nat) (ts : List STok) (cs : List Char),
    ts.length + cs.length < f → ts.length + cs.length < f' →
    smatchF f ts cs = smatchF f' ts cs := by
  intro f
  induction f with
  | zero => intro f' ts cs hf _; omega
  | succ f ih =>
    intro f' ts cs hf hf'
    cases f' with
    | zero => omega
    | succ g =>
      match ts, cs with
      | [], [] => rfl
      | [], _ :: _ => rfl
      | STok.lit a :: _, [] => rfl
      | STok.lit a :: ts, c :: cs =>
        simp only [smatchF]
        simp only [List.length_cons] at hf hf'
        rw [ih g ts cs (by omega) (by omega)]
      | STok.any :: ts, [] =>
        simp only [smatchF]
        simp only [List.length_cons] at hf hf'
        rw [ih g ts [] (by simp; omega) (by simp; omega)]
      | STok.any :: ts, c :: cs =>
        simp only [smatchF]
        simp only [List.length_cons] at hf hf'
        rw [ih g ts (c :: cs) (by simp; omega) (by simp; omega),
          ih g (STok.any :: ts) cs (by simp; omega) (by simp; omega)]

theorem smatch_nil_nil : smatch [] [] = true := rfl

theorem smatch_nil_cons (c : Char) (cs : List Char) : smatch [] (c :: cs) = false := rfl

theorem smatch_lit_nil (a : Char) (ts : List STok) : smatch (STok.lit a :: ts) [] = false := rfl

theorem smatch_lit_cons (a : Char) (ts : List STok) (c : Char) (cs : List Char) :
    smatch (STok.lit a :: ts) (c :: cs) = (decide (a = c) && smatch ts cs) := by
  rw [smatch, smatch]
  simp only [List.length_cons, smatchF]
  rw [smatchF_congr (ts.length + 1 + (cs.length + 1)) (ts.length + cs.length + 1) ts cs
    (by omega) (by omega)]

theorem smatch_any_nil (ts : List STok) : smatch (STok.any :: ts) [] = smatch ts [] := by
  rw [smatch, smatch]
  simp only [List.length_cons, List.length_nil, smatchF]

theorem smatch_any_cons (ts : List STok) (c : Char) (cs : List Char) :
    smatch (STok.any :: ts) (c :: cs) =
      (smatch ts (c :: cs) || smatch (STok.any :: ts) cs) := by
  rw [smatch, smatch, smatch]
  simp only [List.length_cons, smatchF]
  rw [smatchF_congr (ts.length + 1 + (cs.length + 1)) (ts.length + (cs.length + 1) + 1) ts (c :: cs)
    (by simp) (by simp [Nat.lt_succ_iff]),
    smatchF_congr (ts.length + 1 + (cs.length + 1)) (ts.length + 1 + cs.length + 1)
      (STok.any :: ts) cs (by simp) (by simp)]

/-- The spec-side token corresponding to a compiled regex token (for
dot-free token lists). -/
def toSTok : RTok → STok
  | RTok.star => STok.any
  | RTok.dot => STok.any
  | RTok.lit c => STok.lit c

theorem rmatch_eq_smatch : ∀ (n : Nat) (ts : List RTok) (cs : List Char),
    ts.length + cs.length ≤ n →
    (∀ t ∈ ts, t ≠ RTok.dot) → (∀ c ∈ cs, isLineTerm c = false) →
    rmatch ts cs = smatch (ts.map toSTok) cs := by
  intro n
  induction n with
  | zero =>
    intro ts cs hn _ _
    have hts : ts = [] := List.length_eq_zero.mp (by omega)
    have hcs : cs = [] := List.length_eq_zero.mp (by omega)
    subst hts; subst hcs
    rfl
  | succ n ih =>
    intro ts cs hn hnd hnl
    match ts, cs with
    | [], [] => rfl
    | [], c :: cs => rfl
    | RTok.dot :: ts, _ => exact absurd rfl (hnd RTok.dot (List.mem_cons_self _ _))
    | RTok.lit a :: ts, [] => rfl
    | RTok.lit a :: ts, c :: cs =>
      rw [rmatch_lit_cons, List.map_cons, toSTok, smatch_lit_cons,
        ih ts cs (by simp at hn; omega) (fun t ht => hnd t (List.mem_cons_of_mem _ ht))
          (fun c' hc' => hnl c' (List.mem_cons_of_mem _ hc'))]
    | RTok.star :: ts, [] =>
      rw [rmatch_star_nil, List.map_cons, toSTok, smatch_any_nil,
        ih ts [] (by simp at hn ⊢; omega) (fun t ht => hnd t (List.mem_cons_of_mem _ ht))
          (fun c' hc' => absurd hc' (List.not_mem_nil c'))]
    | RTok.star :: ts, c :: cs =>
      rw [rmatch_star_cons, List.map_cons, toSTok, smatch_any_cons,
        hnl c (List.mem_cons_self _ _),
        ih ts (c :: cs) (by simp at hn ⊢; omega)
          (fun t ht => hnd t (List.mem_cons_of_mem _ ht)) hnl,
        ih (RTok.star :: ts) cs (by simp at hn ⊢; omega) hnd
          (fun c' hc' => hnl c' (List.mem_cons_of_mem _ hc'))]
      simp [List.map_cons, toSTok]

/-- An ECMAScript regular-expression metacharacter
(`\ ^ $ . * + ? ( ) [ ] \x7b \x7d |`). -/
def isRegexMeta (c : Char) : Bool :=
  c.toNat = 92 || c.toNat = 94 || c.toNat = 36 || c.toNat = 46 || c.toNat = 42 ||
  c.toNat = 43 || c.toNat = 63 || c.toNat = 40 || c.toNat = 41 || c.toNat = 91 ||
  c.toNat = 93 || c.toNat = 123 || c.toNat = 125 || c.toNat = 124

theorem constraintHolds_iff (params : List (String × String)) (k : String) (pat : List RTok) :
    (match jsGet params k with
     | some v => decide (v ≠ ("")) && rmatch pat v.data
     | none => false) = true ↔
      ∃ v, jsGet params k = some v ∧ v ≠ ("") ∧ rmatch pat v.data = true := by
  match h : jsGet params k with
  | some v => simp [h]
  | none => simp [h]

/-- C5, counterexample: the configured value is **not** regex-escaped, so a
`.` in a rule matches any character instead of only itself: the rule
`owner=a.c` admits `owner=axc`, which the claim's literal-matching wildcard
semantics rejects. -/
theorem isAllowed_dot_metachar_cex :
    isAllowed [[(("owner"), compileAllowed ("a.c"))]] [(("owner"), ("axc"))] = true ∧
    wildcardMatchSpec ("a.c") ("axc") = false := by decide

/-- C5 (amended): `isAllowed` permits everything when the allow-list is
empty, and otherwise permits iff some rule has every named constraint
present with a truthy value matched by its compiled pattern — where the
pattern is compiled without escaping, so `*` becomes "any characters" and
every other character keeps its ECMAScript-regex meaning; restricted to
configured values free of (other) regex metacharacters and values free of
line terminators, this compiled matcher coincides with the spec's anchored
literal wildcard matcher, as in the `facebook*` example. -/
theorem isAllowed_characterization :
    (∀ params, isAllowed [] params = true) ∧
    (∀ rules params, isAllowed rules params = true ↔
      rules = [] ∨ ∃ rule ∈ rules, ∀ kp ∈ rule,
        ∃ v, jsGet params kp.1 = some v ∧ v ≠ ("") ∧ rmatch kp.2 v.data = true) ∧
    (∀ w v : String, (∀ c ∈ w.data, c.toNat ≠ 42 → isRegexMeta c = false) →
      (∀ c ∈ v.data, isLineTerm c = false) →
      rmatch (compileAllowed w) v.data = wildcardMatchSpec w v) ∧
    rmatch (compileAllowed ("facebook*")) ("facebook-rn").data = true ∧
    rmatch (compileAllowed ("facebook*")) ("myfacebook").data = false := by
  refine ⟨fun params => rfl, ?_, ?_, by decide, by decide⟩
  · intro rules params
    rw [isAllowed]
    match rules with
    | [] => simp
    | r :: rs =>
      simp only [List.isEmpty_cons, Bool.false_or, List.any_eq_true]
      constructor
      · rintro ⟨rule, hmem, hsat⟩
        refine Or.inr ⟨rule, hmem, ?_⟩
        intro kp hkp
        rw [ruleSatisfied, List.all_eq_true] at hsat
        exact (constraintHolds_iff params kp.1 kp.2).mp (hsat kp hkp)
      · rintro (h | ⟨rule, hmem, hsat⟩)
        · exact absurd h (List.cons_ne_nil r rs)
        · refine ⟨rule, hmem, ?_⟩
          rw [ruleSatisfied, List.all_eq_true]
          intro kp hkp
          exact (constraintHolds_iff params kp.1 kp.2).mpr (hsat kp hkp)
  · intro w v hw hv
    have hmap : (compileAllowed w).map toSTok = compileSpecWildcard w := by
      rw [compileAllowed, compileSpecWildcard, List.map_map]
      refine List.map_congr_left ?_
      intro c hc
      by_cases h42 : c.toNat = 42
      · simp [Function.comp, h42, toSTok]
      · have hmeta := hw c hc h42
        have h46 : ¬ c.toNat = 46 := by
          intro h
          rw [isRegexMeta] at hmeta
          simp [h] at hmeta
        simp [Function.comp, h42, h46, toSTok]
    have hnd : ∀ t ∈ compileAllowed w, t ≠ RTok.dot := by
      intro t ht
      rw [compileAllowed] at ht
      simp only [List.mem_map] at ht
      obtain ⟨c, hc, hteq⟩ := ht
      by_cases h42 : c.toNat = 42
      · rw [← hteq]
        simp [h42]
      · have hmeta := hw c hc h42
        have h46 : ¬ c.toNat = 46 := by
          intro h
          rw [isRegexMeta] at hmeta
          simp [h] at hmeta
        rw [← hteq]
        simp [h42, h46]
    rw [wildcardMatchSpec, ← hmap]
    exact rmatch_eq_smatch ((compileAllowed w).length + v.data.length)
      (compileAllowed w) v.data le_rfl hnd hv

/-- C5, witness: the metacharacter-free pattern `facebook*` matched against
the line-terminator-free value `facebook-rn` — compiled matcher and spec
wildcard matcher agree. -/
theorem isAllowed_characterization_w :
    rmatch (compileAllowed ("facebook*")) ("facebook-rn").data =
      wildcardMatchSpec ("facebook*") ("facebook-rn") :=
  isAllowed_characterization.2.2.1 ("facebook*") ("facebook-rn") (by decide) (by decide)

/-! ## Claim C1: slash handling in `buildUrl` -/

theorem utf8Bytes_lt (n : Nat) (hn : n < 1114112) : ∀ b ∈ utf8Bytes n, b < 256 := by
  intro b hb
  rw [utf8Bytes] at hb
  by_cases h1 : n < 128
  · simp [h1] at hb
    omega
  · by_cases h2 : n < 2048
    · simp [h1, h2] at hb
      have hd : n / 64 < 32 := Nat.div_lt_of_lt_mul (by omega)
      have hm : n % 64 < 64 := Nat.mod_lt n (by omega)
      omega
    · by_cases h3 : n < 65536
      · simp [h1, h2, h3] at hb
        have hd : n / 4096 < 16 := Nat.div_lt_of_lt_mul (by omega)
        have hm1 : (n / 64) % 64 < 64 := Nat.mod_lt _ (by omega)
        have hm : n % 64 < 64 := Nat.mod_lt n (by omega)
        omega
      · simp [h1, h2, h3] at hb
        have hd : n / 262144 < 5 := Nat.div_lt_of_lt_mul (by omega)
        have hm1 : (n / 4096) % 64 < 64 := Nat.mod_lt _ (by omega)
        have hm2 : (n / 64) % 64 < 64 := Nat.mod_lt _ (by omega)
        have hm : n % 64 < 64 := Nat.mod_lt n (by omega)
        omega

theorem percentByte_toNat (b : Nat) (hb : b < 256) :
    ∀ ch ∈ percentByte b, ch.toNat = 37 ∨ (48 ≤ ch.toNat ∧ ch.toNat ≤ 57) ∨
      (65 ≤ ch.toNat ∧ ch.toNat ≤ 70) := by
  intro ch hch
  have hdiv : b / 16 < 16 := Nat.div_lt_of_lt_mul (by omega)
  have hmod : b % 16 < 16 := Nat.mod_lt b (by omega)
  rw [percentByte] at hch
  simp at hch
  rcases hch with h | h | h
  · subst h
    left
    exact toNat_charOfNat 37 (by omega)
  · subst h
    right
    rw [hexDigitChar]
    by_cases hlt : b / 16 < 10
    · rw [if_pos hlt, toNat_charOfNat _ (by omega)]
      omega
    · rw [if_neg hlt, toNat_charOfNat _ (by omega)]
      omega
  · subst h
    right
    rw [hexDigitChar]
    by_cases hlt : b % 16 < 10
    · rw [if_pos hlt, toNat_charOfNat _ (by omega)]
      omega
    · rw [if_neg hlt, toNat_charOfNat _ (by omega)]
      omega

/-- The percent-encoder never emits a literal `/`: a slash in the value is
encoded away (`%2F`). -/
theorem encodeURIComponent_no_slash (v : String) :
    ∀ ch ∈ (encodeURIComponent v).data, ch.toNat ≠ 47 := by
  intro ch hch
  rw [encodeURIComponent] at hch
  simp only [List.mem_flatten, List.mem_map] at hch
  obtain ⟨l, ⟨c, _hc, hl⟩, hmem⟩ := hch
  subst hl
  rw [encodeChar] at hmem
  by_cases hu : isUriUnreserved c
  · rw [if_pos hu] at hmem
    simp at hmem
    subst hmem
    simp [isUriUnreserved] at hu
    omega
  · rw [if_neg hu] at hmem
    simp only [List.mem_flatten, List.mem_map] at hmem
    obtain ⟨pl, ⟨b, hb, hpl⟩, hchpl⟩ := hmem
    subst hpl
    have hvc : c.toNat < 1114112 := by
      have := c.valid
      rcases this with h | ⟨_, h⟩
      · exact lt_trans h (by norm_num)
      · exact h
    have hb256 := utf8Bytes_lt c.toNat hvc b hb
    have := percentByte_toNat b hb256 ch hchpl
    omega

theorem splitOnChar_ne_nil (sep : Char) (l : List Char) : splitOnChar sep l ≠ [] := by
  cases l with
  | nil => simp [splitOnChar]
  | cons c cs =>
    rw [splitOnChar]
    by_cases h : c = sep
    · simp [h]
    · rw [if_neg h]
      match splitOnChar sep cs with
      | [] => simp
      | h' :: t => simp

theorem splitOnChar_two_of_mem (sep : Char) (l : List Char) (hmem : sep ∈ l) :
    ∃ p q rest, splitOnChar sep l = p :: q :: rest := by
  induction l with
  | nil => simp at hmem
  | cons c cs ih =>
    rw [splitOnChar]
    by_cases h : c = sep
    · rw [if_pos h]
      match hs : splitOnChar sep cs with
      | [] => exact absurd hs (splitOnChar_ne_nil sep cs)
      | q :: rest => exact ⟨[], q, rest, rfl⟩
    · rw [if_neg h]
      have hmem' : sep ∈ cs := by
        rcases List.mem_cons.mp hmem with h' | h'
        · exact absurd h'.symm h
        · exact h'
      obtain ⟨p, q, rest, hs⟩ := ih hmem'
      rw [hs]
      exact ⟨c :: p, q, rest, rfl⟩

theorem joinWith_cons_cons (sep : String) (s s' : String) (rest : List String) :
    joinWith sep (s :: s' :: rest) = s ++ sep ++ joinWith sep (s' :: rest) := rfl

/-- C1, counterexample: in NAMED mode (`USE_POSITIONAL_PARAMS` unset) a
capture value containing a slash is percent-encoded **whole** — the claimed
mode-independent split-on-slash does not happen, and `"a/b c"` builds as
`a%2Fb%20c`, not `a/b%20c`. -/
theorem buildUrl_named_mode_encodes_slash_cex :
    buildUrl false ("\x7bp\x7d") [(("p"), ("a/b c"))] = ("a%2Fb%20c") ∧
    buildUrl false ("\x7bp\x7d") [(("p"), ("a/b c"))] ≠ ("a/b%20c") := by
  constructor
  · rfl
  · decide

/-- C1 (amended): `buildUrl` substitutes each placeholder by
percent-encoding; the split-on-`/`/encode-pieces/rejoin behaviour applies
**only in POSITIONAL mode** — in NAMED mode the whole value is
percent-encoded, so no literal slash survives encoding, while in positional
mode a slash-containing capture keeps its literal slashes; the capture value
`"a/b c"` builds as `a/b%20c` positionally and as `a%2Fb%20c` in named
mode. -/
theorem buildUrl_slash_handling (value : String) :
    (hasSlash value = false → renderHole true value = encodeURIComponent value) ∧
    (renderHole false value = encodeURIComponent value) ∧
    (∀ ch ∈ (renderHole false value).data, ch.toNat ≠ 47) ∧
    (hasSlash value = true → Char.ofNat 47 ∈ (renderHole true value).data) ∧
    renderHole true ("a/b c") = ("a/b%20c") ∧
    renderHole false ("a/b c") = ("a%2Fb%20c") ∧
    buildUrl true ("\x7bp\x7d") [(("p"), ("a/b c"))] = ("a/b%20c") := by
  refine ⟨?_, ?_, ?_, ?_, by rfl, by rfl, by rfl⟩
  · intro h
    rw [renderHole, h]
    simp
  · rw [renderHole]
    simp
  · rw [renderHole]
    simp only [Bool.false_and, if_false]
    exact encodeURIComponent_no_slash value
  · intro h
    rw [renderHole, h]
    simp only [Bool.and_true, Bool.true_and, if_true]
    have hmem : Char.ofNat 47 ∈ value.data := by
      rw [hasSlash] at h
      simp only [List.any_eq_true, decide_eq_true_eq] at h
      obtain ⟨c, hc, hceq⟩ := h
      exact hceq ▸ hc
    obtain ⟨p, q, rest, hs⟩ := splitOnChar_two_of_mem (Char.ofNat 47) value.data hmem
    rw [hs, List.map_cons, List.map_cons, joinWith_cons_cons]
    rw [String.data_append, String.data_append]
    refine List.mem_append.mpr (Or.inl (List.mem_append.mpr (Or.inr ?_)))
    simp [String.data]

/-- C1, witness: applying the mode characterization at the concrete capture
value `"a/b c"`. -/
theorem buildUrl_slash_handling_w :
    Char.ofNat 47 ∈ (renderHole true ("a/b c")).data ∧
    renderHole false ("x y") = encodeURIComponent ("x y") :=
  ⟨(buildUrl_slash_handling ("a/b c")).2.2.2.1 (by rfl),
    (buildUrl_slash_handling ("x y")).2.1⟩

/-! ## Claim C6: when startup configuration is fatal -/

/-- C6, counterexample: a `URL_PATTERNS` value consisting of a single entry
with no `=` separator does **not** make startup fail — the malformed entry is
silently skipped by `if (key && url)` and the registry comes up empty, so the
claimed third fatal configuration does not exist. -/
theorem urlPatterns_malformed_skipped_cex :
    parseUrlPatterns (some ("FOO")) none = ConfigResult.ok [] ∧
    ∀ msg, parseUrlPatterns (some ("FOO")) none ≠ ConfigResult.fatal msg := by
  refine ⟨by rfl, ?_⟩
  intro msg h
  rw [show parseUrlPatterns (some ("FOO")) none = ConfigResult.ok [] from rfl] at h
  exact ConfigResult.noConfusion h

/-- C6 (amended): registry construction fails fatally **exactly** when both
pattern sources are truthy or neither is; a named entry missing its `=` is
silently skipped, not fatal. -/
theorem urlPatterns_fatal_iff (a b : Option String) :
    (∃ msg, parseUrlPatterns a b = ConfigResult.fatal msg) ↔
      ((truthyEnv a = true ∧ truthyEnv b = true) ∨
        (truthyEnv a = false ∧ truthyEnv b = false)) := by
  by_cases ha : truthyEnv a <;> by_cases hb : truthyEnv b <;>
    simp [parseUrlPatterns, ha, hb]

/-! ## Claim C8: cache lookup absence conditions -/

/-- C8: the cache lookup treats an entry as absent whenever the content file
or the metadata file is missing, the entry's age is at least the route's
timeout, or reading either file fails; validity is exactly
`now - storedAtEpochMillis < cacheTtlSeconds * 1000` (the stored-at time
being the metadata file's modification time, set when the entry is
written). -/
theorem cacheLookup_absence (files : CacheFiles) (now t : Int) :
    (isCacheValid files now t = true ↔
      ∃ c m, files.content = some c ∧ files.metadata = some m ∧
        now - m.mtimeMs < t * 1000) ∧
    (files.content = none → cacheLookup files now t = none) ∧
    (files.metadata = none → cacheLookup files now t = none) ∧
    (∀ m, files.metadata = some m → t * 1000 ≤ now - m.mtimeMs →
      cacheLookup files now t = none) ∧
    (∀ m c, files.metadata = some m → files.content = some c →
      ¬(m.readOk = true ∧ c.readOk = true) → cacheLookup files now t = none) := by
  have hage : ∀ (m : FileInfo), cacheAgeSeconds now m < (t : ℚ) ↔ now - m.mtimeMs < t * 1000 := by
    intro m
    rw [cacheAgeSeconds, div_lt_iff₀ (by norm_num : (0 : ℚ) < 1000)]
    constructor <;> intro h <;> exact_mod_cast h
  refine ⟨?_, ?_, ?_, ?_, ?_⟩
  · constructor
    · intro h
      match hc : files.content, hm : files.metadata with
      | some c, some m =>
        refine ⟨c, m, rfl, rfl, ?_⟩
        rw [isCacheValid, hc, hm] at h
        exact (hage m).mp (of_decide_eq_true h)
      | some _, none => rw [isCacheValid, hc, hm] at h; exact absurd h (by simp)
      | none, some _ => rw [isCacheValid, hc, hm] at h; exact absurd h (by simp)
      | none, none => rw [isCacheValid, hc, hm] at h; exact absurd h (by simp)
    · rintro ⟨c, m, hc, hm, h⟩
      rw [isCacheValid, hc, hm]
      exact decide_eq_true ((hage m).mpr h)
  · intro hc
    rw [cacheLookup, isCacheValid, hc]
    match hm : files.metadata with
    | some _ => simp
    | none => simp
  · intro hm
    rw [cacheLookup, isCacheValid, hm]
    match hc : files.content with
    | some _ => simp
    | none => simp
  · intro m hm hle
    rw [cacheLookup]
    match hc : files.content with
    | some c =>
      rw [isCacheValid, hc, hm]
      have : ¬ (cacheAgeSeconds now m < (t : ℚ)) := fun hlt => by
        have := (hage m).mp hlt
        omega
      simp [this]
    | none =>
      rw [isCacheValid, hc]
      simp
  · intro m c hm hc hro
    rw [cacheLookup]
    by_cases hv : isCacheValid files now t
    · rw [if_pos hv, readCacheFile, hm, hc]
      have : ¬ (m.readOk && c.readOk) = true := by
        simp only [Bool.and_eq_true]
        exact hro
      simp [this]
    · rw [if_neg hv]

/-- C8, witness: a concrete expired entry (stored at epoch 0, timeout 1s,
queried at 5000ms) is absent. -/
theorem cacheLookup_absence_w :
    cacheLookup (CacheFiles.mk (some (FileInfo.mk 0 true (""))) (some (FileInfo.mk 0 true ("")))) 5000 1 = none :=
  (cacheLookup_absence
      (CacheFiles.mk (some (FileInfo.mk 0 true (""))) (some (FileInfo.mk 0 true ("")))) 5000 1).2.2.2.1
    (FileInfo.mk 0 true ("")) rfl (by norm_num)

/-! ## Claim C7: validation and authorization errors precede the fetch -/

/-- C7: whenever resolution, placeholder validation or the allow-list check
fails, `processRequest` returns the corresponding error response and never
reaches the upstream fetch; conversely the fetch phase is reached only when
all three succeeded. -/
theorem pipeline_error_before_fetch (u : Bool) (tpl : String)
    (rules : List (List (String × List RTok))) (segs : List String) :
    (∀ key, resolveSegments u tpl segs = ResolveResult.errMissingValue key →
      processPipeline u tpl rules segs = Outcome.badPath (("Missing value for key: ") ++ key)) ∧
    (resolveSegments u tpl segs = ResolveResult.errOddSegments →
      processPipeline u tpl rules segs = Outcome.badPath ("Invalid number of URL segments")) ∧
    (∀ params missing, resolveSegments u tpl segs = ResolveResult.ok params →
      validatePlaceholders tpl params = some missing →
      processPipeline u tpl rules segs = Outcome.missingParam missing) ∧
    (∀ params, resolveSegments u tpl segs = ResolveResult.ok params →
      validatePlaceholders tpl params = none → isAllowed rules params = false →
      processPipeline u tpl rules segs = Outcome.forbidden) ∧
    (∀ url, processPipeline u tpl rules segs = Outcome.proceed url →
      ∃ params, resolveSegments u tpl segs = ResolveResult.ok params ∧
        validatePlaceholders tpl params = none ∧ isAllowed rules params = true ∧
        url = buildUrl u tpl params) := by
  refine ⟨?_, ?_, ?_, ?_, ?_⟩
  · intro key h
    rw [processPipeline, h]
  · intro h
    rw [processPipeline, h]
  · intro params missing h hv
    rw [processPipeline, h]
    dsimp only
    rw [hv]
  · intro params h hv ha
    rw [processPipeline, h]
    dsimp only
    rw [hv, if_neg (by rw [ha]; exact Bool.false_ne_true)]
  · intro url h
    rw [processPipeline] at h
    match hr : resolveSegments u tpl segs with
    | ResolveResult.errMissingValue key => rw [hr] at h; exact Outcome.noConfusion h
    | ResolveResult.errOddSegments => rw [hr] at h; exact Outcome.noConfusion h
    | ResolveResult.ok params =>
      rw [hr] at h
      dsimp only at h
      match hv : validatePlaceholders tpl params with
      | some missing => rw [hv] at h; exact Outcome.noConfusion h
      | none =>
        rw [hv] at h
        by_cases ha : isAllowed rules params
        · rw [if_pos ha] at h
          exact ⟨params, rfl, hv, ha, (Outcome.proceed.injEq _ _).mp h.symm⟩
        · rw [if_neg ha] at h
          exact Outcome.noConfusion h

/-- C7, witness: a template requiring `\x7btag\x7d` with a request that never
supplies `tag` produces the missing-parameter error (and hence never the
fetch outcome). -/
theorem pipeline_error_before_fetch_w :
    processPipeline false ("https://e/\x7btag\x7d") [] [("other"), ("v")] =
      Outcome.missingParam ("tag") :=
  (pipeline_error_before_fetch false ("https://e/\x7btag\x7d") [] [("other"), ("v")]).2.2.1
    [(("other"), ("v"))] ("tag") (by rfl) (by rfl)

/-! ## Claim C9: the expiry sweep — main theorems -/

theorem sweptName_nil (nowMs t : Int) (fs0 : List (String × FileInfo)) (x : String) :
    sweptName nowMs t fs0 [] x = false := rfl

theorem sweptName_cons_expired (nowMs t : Int) (fs0 : List (String × FileInfo))
    (n : String) (ns : List String) (x : String)
    (h : expiredCacheFile nowMs t fs0 n = true) :
    sweptName nowMs t fs0 (n :: ns) x =
      (decide (x = n) || decide (x = metaNameOf n) || sweptName nowMs t fs0 ns x) := by
  by_cases hx1 : x = n
  · subst hx1
    simp [sweptName, List.any_cons, h, List.mem_cons]
  · by_cases hx2 : x = metaNameOf n
    · simp [sweptName, List.any_cons, h, hx2]
    · simp [sweptName, List.any_cons, List.mem_cons, hx1, hx2]

theorem sweptName_cons_kept (nowMs t : Int) (fs0 : List (String × FileInfo))
    (n : String) (ns : List String) (x : String)
    (h : expiredCacheFile nowMs t fs0 n = false) :
    sweptName nowMs t fs0 (n :: ns) x = sweptName nowMs t fs0 ns x := by
  by_cases hx1 : x = n
  · subst hx1
    simp [sweptName, List.any_cons, h, List.mem_cons]
  · simp [sweptName, List.any_cons, List.mem_cons, hx1, h]

theorem sweepLoop_eq (nowMs t : Int) (fs0 : List (String × FileInfo)) :
    ∀ (ns : List String) (fs : List (String × FileInfo)),
    ns.Nodup →
    (∀ n ∈ ns, isCacheName n = true →
      fsFind fs n = fsFind fs0 n ∧ fsFind fs (metaNameOf n) = fsFind fs0 (metaNameOf n)) →
    sweepLoop nowMs t ns fs =
      (fs.filter (fun e => !(sweptName nowMs t fs0 ns e.1)),
       (ns.filter (fun n => expiredCacheFile nowMs t fs0 n)).length) := by
  intro ns
  induction ns with
  | nil =>
    intro fs _ _
    rw [sweepLoop]
    refine Prod.ext ?_ rfl
    symm
    rw [List.filter_eq_self]
    intro e _
    rw [sweptName_nil]
    rfl
  | cons n ns ih =>
    intro fs hnd hH
    have hnd' : ns.Nodup := (List.nodup_cons.mp hnd).2
    have hnmem : n ∉ ns := (List.nodup_cons.mp hnd).1
    by_cases hcn : isCacheName n = true
    · have hcongr := expiredCacheFile_congr nowMs t fs fs0 n
        (hH n (List.mem_cons_self _ _) hcn).1 (hH n (List.mem_cons_self _ _) hcn).2
      by_cases hval : isCacheValid (mkCacheFiles fs n) nowMs t = true
      · -- valid entry: kept, not counted
        have hexp : expiredCacheFile nowMs t fs0 n = false := by
          rw [← hcongr, expiredCacheFile, hval]
          simp
        rw [sweepLoop, if_pos hcn, if_pos hval]
        rw [ih fs hnd' (fun m hm hcm => hH m (List.mem_cons_of_mem _ hm) hcm)]
        refine Prod.ext ?_ ?_
        · simp only
          refine List.filter_congr ?_
          intro e _
          rw [sweptName_cons_kept nowMs t fs0 n ns e.1 hexp]
        · simp only
          rw [List.filter_cons, if_neg (by rw [hexp]; simp)]
      · -- invalid entry: pair deleted, counted
        have hexp : expiredCacheFile nowMs t fs0 n = true := by
          rw [← hcongr, expiredCacheFile, hcn]
          simp [hval]
        have hH2 : ∀ m ∈ ns, isCacheName m = true →
            fsFind (deleteEntry fs n) m = fsFind fs0 m ∧
            fsFind (deleteEntry fs n) (metaNameOf m) = fsFind fs0 (metaNameOf m) := by
          intro m hm hcm
          have hmn : m ≠ n := fun h => hnmem (h ▸ hm)
          constructor
          · rw [fsFind_deleteEntry fs n m hmn (fun h => metaNameOf_ne_cacheName n m hcm h.symm)]
            exact (hH m (List.mem_cons_of_mem _ hm) hcm).1
          · rw [fsFind_deleteEntry fs n (metaNameOf m)
              (metaNameOf_ne_cacheName m n hcn)
              (fun h => hmn (metaNameOf_inj m n hcm hcn h))]
            exact (hH m (List.mem_cons_of_mem _ hm) hcm).2
        rw [sweepLoop, if_pos hcn, if_neg hval]
        rw [ih (deleteEntry fs n) hnd' hH2]
        refine Prod.ext ?_ ?_
        · simp only
          rw [deleteEntry, fsRemove, fsRemove, List.filter_filter, List.filter_filter]
          refine List.filter_congr ?_
          intro e _
          rw [sweptName_cons_expired nowMs t fs0 n ns e.1 hexp]
          by_cases he1 : e.1 = n
          · simp [he1]
          · by_cases he2 : e.1 = metaNameOf n
            · simp [he1, he2]
            · simp [he1, he2]
        · simp only
          rw [List.filter_cons, if_pos (by rw [hexp])]
          simp
    · -- not a .cache listing entry: skipped
      have hexp : expiredCacheFile nowMs t fs0 n = false := by
        rw [expiredCacheFile, show isCacheName n = false from by
          cases h : isCacheName n with
          | true => exact absurd h hcn
          | false => rfl]
        rfl
      rw [sweepLoop, if_neg (fun h => hcn h)]
      rw [ih fs hnd' (fun m hm hcm => hH m (List.mem_cons_of_mem _ hm) hcm)]
      refine Prod.ext ?_ ?_
      · simp only
        refine List.filter_congr ?_
        intro e _
        rw [sweptName_cons_kept nowMs t fs0 n ns e.1 hexp]
      · simp only
        rw [List.filter_cons, if_neg (by rw [hexp]; simp)]

theorem sweepService_eq (nowMs t : Int) (fs : List (String × FileInfo))
    (h : (fs.map (fun e => e.1)).Nodup) :
    sweepService nowMs t fs =
      (fs.filter (fun e => !(sweptName nowMs t fs (fs.map (fun e => e.1)) e.1)),
       ((fs.map (fun e => e.1)).filter (fun n => expiredCacheFile nowMs t fs n)).length) := by
  rw [sweepService]
  exact sweepLoop_eq nowMs t fs (fs.map (fun e => e.1)) fs h (fun _ _ _ => ⟨rfl, rfl⟩)

/-- C9, counterexample: a service with a positive ttl holding an orphan
`x.cache` with **no** metadata partner contains no content+metadata entry
pair at all, yet the sweep deletes the file and reports one cleaned entry —
it does not leave every non-expired-pair file untouched. -/
theorem sweep_orphan_cache_cex :
    cleanExpiredCacheFiles [(("s"), (60 : Int))] 0
        [(("s"), [(("x.cache"), FileInfo.mk 0 true (""))])] =
      ([(("s"), [])], 1) ∧
    fsFind [(("x.cache"), FileInfo.mk 0 true (""))] (metaNameOf ("x.cache")) = none := by
  constructor
  · rfl
  · rfl

/-- C9 (amended): the sweep visits only route namespaces whose configured
timeout is a positive number, leaves every other namespace untouched, and
within a swept namespace deletes exactly the `.cache` files failing the
validity check (age at least the ttl, **or** metadata file missing) together
with their `.meta` partners, counting one per cleaned `.cache` file; valid
entries and unrelated files are preserved. -/
theorem cleanExpired_exact (timeouts : List (String × Int)) (nowMs : Int) :
    ∀ (dirs : List (String × List (String × FileInfo))),
    (∀ d ∈ dirs, (d.2.map (fun e => e.1)).Nodup) →
    cleanExpiredCacheFiles timeouts nowMs dirs =
      (dirs.map (fun d => (d.1,
        match jsGet timeouts d.1 with
        | none => d.2
        | some t => if t ≤ 0 then d.2
          else d.2.filter (fun e => !(sweptName nowMs t d.2 (d.2.map (fun e => e.1)) e.1)))),
       (dirs.map (fun d =>
        match jsGet timeouts d.1 with
        | none => 0
        | some t => if t ≤ 0 then 0
          else ((d.2.map (fun e => e.1)).filter
            (fun n => expiredCacheFile nowMs t d.2 n)).length)).sum) := by
  intro dirs
  induction dirs with
  | nil =>
    intro _
    rfl
  | cons d ds ih =>
    intro h
    have hd := h d (List.mem_cons_self _ _)
    have hds := ih (fun d' hd' => h d' (List.mem_cons_of_mem _ hd'))
    rw [cleanExpiredCacheFiles]
    match ht : jsGet timeouts d.1 with
    | none =>
      rw [hds]
      simp only [List.map_cons, ht, List.sum_cons, Nat.zero_add]
    | some t =>
      dsimp only
      by_cases htle : t ≤ 0
      · rw [if_pos htle, hds]
        simp only [List.map_cons, ht, List.sum_cons, if_pos htle, Nat.zero_add]
      · rw [if_neg htle, hds, sweepService_eq nowMs t d.2 hd]
        simp only [List.map_cons, ht, List.sum_cons, if_neg htle, Nat.zero_add]

/-- C9, witness: one service with ttl 60s holding an expired pair (stored at
epoch 0, swept at epoch 10^9 ms) — the characterization applies. -/
theorem cleanExpired_exact_w :
    cleanExpiredCacheFiles [(("s"), (60 : Int))] 1000000000
        [(("s"), [(("x.cache"), FileInfo.mk 0 true ("")), (("x.meta"), FileInfo.mk 0 true (""))])] =
      ([(("s"), [(("x.cache"), FileInfo.mk 0 true ("")), (("x.meta"), FileInfo.mk 0 true (""))].filter
          (fun e => !(sweptName 1000000000 60
            [(("x.cache"), FileInfo.mk 0 true ("")), (("x.meta"), FileInfo.mk 0 true (""))]
            ([(("x.cache"), FileInfo.mk 0 true ("")), (("x.meta"), FileInfo.mk 0 true (""))].map
              (fun e => e.1)) e.1)))],
       ([(("s"),
          ((([(("x.cache"), FileInfo.mk 0 true ("")), (("x.meta"), FileInfo.mk 0 true (""))].map
            (fun e => e.1)).filter
            (fun n => expiredCacheFile 1000000000 60
              [(("x.cache"), FileInfo.mk 0 true ("")), (("x.meta"), FileInfo.mk 0 true (""))]
              n)).length))].map (fun d => d.2)).sum) := by
  have h := cleanExpired_exact [(("s"), (60 : Int))] 1000000000
    [(("s"), [(("x.cache"), FileInfo.mk 0 true ("")), (("x.meta"), FileInfo.mk 0 true (""))])]
    (by decide)
  simpa using h

end Proxy
